import Mathlib

/-!
Verification of the RAM/AST transformation passes of the souffle
optimization middle-end: condition levelling, index creation,
existence-check conversion, the magic-set BindingStore, and the
unique-aggregation-variables renaming.

The RA-IR node vocabulary (expressions, conditions, operations) and the
level/constant analyses are modelled from the specification, since their
defining headers are external to the transform sources; the transformation
algorithms themselves are translated from RamTransforms.cpp, MagicSet.h and
UniqueAggregationVariables.cpp.
-/

namespace Souffle

/-- Modelled from the spec: binary constraint operators of RA-IR
`Constraint(op, lhs, rhs)` with `op ∈ {EQ, NE, LT, LE, GT, GE}`. -/
inductive BinaryConstraintOp where
  | EQ | NE | LT | LE | GT | GE

/-- Modelled from the spec: RA-IR expressions. `ElementAccess(identifier,
element)` reads column `element` of the tuple bound by the search with the
given identifier; `Number` is a numeric constant; operators and record
packing carry argument lists. -/
inductive RamExpression where
  | ElementAccess (identifier element : Nat)
  | Number (value : Int)
  | IntrinsicOperator (op : Nat) (args : List RamExpression)
  | UserDefinedOperator (name : String) (args : List RamExpression)
  | PackRecord (args : List RamExpression)

/-- Modelled from the spec: RA-IR conditions. An `ExistenceCheck` carries a
query pattern with one optional expression per column. -/
inductive RamCondition where
  | Conjunction (lhs rhs : RamCondition)
  | Negation (c : RamCondition)
  | Constraint (op : BinaryConstraintOp) (lhs rhs : RamExpression)
  | EmptinessCheck (rel : String)
  | ExistenceCheck (rel : String) (pattern : List (Option RamExpression))

/-- Modelled from the spec: RA-IR operations. Relations are referred to by
name together with their arity. A `Filter` holds its condition as an
`Option` because the C++ `RamFilter` stores a nullable owning pointer (the
existence-check conversion can construct a filter with a null condition).
`OtherSearch` stands for a `RamRelationSearch` subtype that is neither
`RamScan` nor `RamIndexScan`: the C++ class hierarchy is open and
`convertExistenceChecks` dispatches on the two known subtypes only.
Search operations carry a profile/debug text. -/
inductive RamOperation where
  | Scan (rel : String) (arity identifier : Nat) (body : RamOperation) (profileText : String)
  | IndexScan (rel : String) (arity identifier : Nat)
      (queryPattern : List (Option RamExpression)) (body : RamOperation) (profileText : String)
  | OtherSearch (rel : String) (arity identifier : Nat) (body : RamOperation) (profileText : String)
  | Filter (condition : Option RamCondition) (body : RamOperation) (profileText : String)
  | UnpackRecord (referenceLevel : Nat) (body : RamOperation)
  | Project (rel : String) (values : List RamExpression)

/-- Modelled from the spec: an RA-IR program is a collection of queries,
each owning one operation subtree. -/
abbrev RamProgram := List RamOperation

def emptyProfile : String := ""

mutual

/-- Modelled from the spec: the value-level analysis `rvla->getLevel`. For
an `ElementAccess(i, _)` the level is `i`; for compound expressions it is
the maximum over the children; `-1` (OUTER) means no search dependency. -/
def valueLevel : RamExpression → Int
  | .ElementAccess i _ => (i : Int)
  | .Number _ => -1
  | .IntrinsicOperator _ args => valueLevelList args
  | .UserDefinedOperator _ args => valueLevelList args
  | .PackRecord args => valueLevelList args

def valueLevelList : List RamExpression → Int
  | [] => -1
  | e :: es => max (valueLevel e) (valueLevelList es)

end

mutual

/-- Modelled from the spec: the constant analysis `rcva->isConstant`, true
iff the expression contains no `ElementAccess`. -/
def isConstant : RamExpression → Bool
  | .ElementAccess _ _ => false
  | .Number _ => true
  | .IntrinsicOperator _ args => isConstantList args
  | .UserDefinedOperator _ args => isConstantList args
  | .PackRecord args => isConstantList args

def isConstantList : List RamExpression → Bool
  | [] => true
  | e :: es => isConstant e && isConstantList es

end

/-- Modelled from the spec: level of an optional pattern entry (`None`
entries contribute no dependency). -/
def valueLevelOpt : Option RamExpression → Int
  | none => -1
  | some e => valueLevel e

def valueLevelOptList : List (Option RamExpression) → Int
  | [] => -1
  | e :: es => max (valueLevelOpt e) (valueLevelOptList es)

/-- Modelled from the spec: the condition-level analysis `rcla->getLevel`,
the maximum level over the expressions of the condition, `-1` when the
condition depends on no search. -/
def conditionLevel : RamCondition → Int
  | .Conjunction l r => max (conditionLevel l) (conditionLevel r)
  | .Negation c => conditionLevel c
  | .Constraint _ l r => max (valueLevel l) (valueLevel r)
  | .EmptinessCheck _ => -1
  | .ExistenceCheck _ pat => valueLevelOptList pat

/-- Translation of the anonymous-namespace helper `getConditions` of
RamTransforms.cpp: repeatedly emit the right-hand side of a conjunction and
descend into the left-hand side; a non-conjunction ends the loop. -/
def getConditions : RamCondition → List RamCondition
  | .Conjunction l r => r :: getConditions l
  | .Negation c => [.Negation c]
  | .Constraint op l r => [.Constraint op l r]
  | .EmptinessCheck rel => [.EmptinessCheck rel]
  | .ExistenceCheck rel pat => [.ExistenceCheck rel pat]

/-- Translation of the `addCondition` accumulation used by
`levelConditions` and `rewriteScan`: conditions are conjoined
left-to-right, producing a left-leaning conjunction whose leftmost leaf is
the first accumulated condition. -/
def addConditionAll (first : RamCondition) (rest : List RamCondition) : RamCondition :=
  rest.foldl RamCondition.Conjunction first

/-- Translation of `insertFilter` of `levelConditions`: wrap the operation
in a filter carrying the accumulated conditions, or leave it alone when
nothing was accumulated. -/
def insertFilter (cs : List RamCondition) (op : RamOperation) : RamOperation :=
  match cs with
  | [] => op
  | c :: rest => .Filter (some (addConditionAll c rest)) op emptyProfile

/-- Translation of the `filterRewriter` sweep of `levelConditions`: remove
every filter in the subtree whose condition has the given level, returning
the stripped subtree together with the removed conditions in the order the
rewriter collects them (a filter's own condition before those below it). -/
def collectFilters (lvl : Int) : RamOperation → RamOperation × List RamCondition
  | .Filter (some c) body p =>
      if conditionLevel c = lvl then
        let r := collectFilters lvl body
        (r.1, c :: r.2)
      else
        let r := collectFilters lvl body
        (.Filter (some c) r.1 p, r.2)
  | .Filter none body p =>
      let r := collectFilters lvl body
      (.Filter none r.1 p, r.2)
  | .Scan rel a i body p =>
      let r := collectFilters lvl body
      (.Scan rel a i r.1 p, r.2)
  | .IndexScan rel a i pat body p =>
      let r := collectFilters lvl body
      (.IndexScan rel a i pat r.1 p, r.2)
  | .OtherSearch rel a i body p =>
      let r := collectFilters lvl body
      (.OtherSearch rel a i r.1 p, r.2)
  | .UnpackRecord l body =>
      let r := collectFilters lvl body
      (.UnpackRecord l r.1, r.2)
  | .Project rel vs => (.Project rel vs, [])

/-- Size of an operation subtree, used as recursion fuel for the
per-search hoisting sweep. -/
def opSize : RamOperation → Nat
  | .Scan _ _ _ body _ => opSize body + 1
  | .IndexScan _ _ _ _ body _ => opSize body + 1
  | .OtherSearch _ _ _ body _ => opSize body + 1
  | .Filter _ body _ => opSize body + 1
  | .UnpackRecord _ body => opSize body + 1
  | .Project _ _ => 1

/-- Translation of the first sweep of `levelConditions`: per query, remove
every filter whose condition has level `-1` and re-insert a single filter
with the accumulated condition at the outermost level of the query. The
second component reports whether any filter was collected. -/
def hoistOuter (q : RamOperation) : RamOperation × Bool :=
  let r := collectFilters (-1) q
  (insertFilter r.2 r.1, !r.2.isEmpty)

/-- Translation of the second sweep of `levelConditions` (fuelled version):
visiting searches in pre-order, remove every filter in the search's subtree
whose condition level equals the search's identifier and re-insert a single
filter with the accumulated condition directly under the search; the
traversal then continues into the rewritten subtree. The fuel bounds the
recursion depth and is sufficient whenever it is at least the subtree size. -/
def hoistSearchesFuel : Nat → RamOperation → RamOperation × Bool
  | 0, op => (op, false)
  | n + 1, .Scan rel a i body p =>
      let c := collectFilters (i : Int) body
      let r := hoistSearchesFuel n c.1
      (.Scan rel a i (insertFilter c.2 r.1) p, !c.2.isEmpty || r.2)
  | n + 1, .IndexScan rel a i pat body p =>
      let c := collectFilters (i : Int) body
      let r := hoistSearchesFuel n c.1
      (.IndexScan rel a i pat (insertFilter c.2 r.1) p, !c.2.isEmpty || r.2)
  | n + 1, .OtherSearch rel a i body p =>
      let c := collectFilters (i : Int) body
      let r := hoistSearchesFuel n c.1
      (.OtherSearch rel a i (insertFilter c.2 r.1) p, !c.2.isEmpty || r.2)
  | n + 1, .Filter c body p =>
      let r := hoistSearchesFuel n body
      (.Filter c r.1 p, r.2)
  | n + 1, .UnpackRecord l body =>
      let r := hoistSearchesFuel n body
      (.UnpackRecord l r.1, r.2)
  | _ + 1, .Project rel vs => (.Project rel vs, false)

/-- Per-search hoisting sweep of `levelConditions` at its natural fuel. -/
def hoistSearches (op : RamOperation) : RamOperation × Bool :=
  hoistSearchesFuel (opSize op) op

/-- Translation of `LevelConditionsTransformer::levelConditions` restricted
to one query: first sweep hoists level `-1` conditions to the outermost
scope of the query, second sweep hoists per-search conditions directly
under their search; the flag reports whether any filter was moved. -/
def levelConditionsQuery (q : RamOperation) : RamOperation × Bool :=
  let a := hoistOuter q
  let b := hoistSearches a.1
  (b.1, a.2 || b.2)

/-- Translation of `LevelConditionsTransformer::levelConditions` over a
whole program (one entry per query). -/
def levelConditions : RamProgram → RamProgram × Bool
  | [] => ([], false)
  | q :: qs =>
      let x := levelConditionsQuery q
      let y := levelConditions qs
      (x.1 :: y.1, x.2 || y.2)

/-- Translation of `CreateIndicesTransformer::getIndexElement`: an equality
constraint binds a pattern column when one side is an `ElementAccess` at
the scan's identifier and the other side is constant or of strictly lower
level; the left-hand side is tried first. Returns the bound column and the
binding expression. -/
def getIndexElement (identifier : Nat) : RamCondition → Option (Nat × RamExpression)
  | .Constraint .EQ lhs rhs =>
      match lhs, rhs with
      | .ElementAccess i c, rhs =>
          if valueLevel (.ElementAccess i c) = (identifier : Int) ∧
              (isConstant rhs = true ∨ valueLevel rhs < (identifier : Int)) then
            some (c, rhs)
          else
            match rhs with
            | .ElementAccess j d =>
                if valueLevel (.ElementAccess j d) = (identifier : Int) ∧
                    (isConstant (.ElementAccess i c) = true ∨
                      valueLevel (RamExpression.ElementAccess i c) < (identifier : Int)) then
                  some (d, .ElementAccess i c)
                else none
            | _ => none
      | lhs, .ElementAccess j d =>
          if valueLevel (.ElementAccess j d) = (identifier : Int) ∧
              (isConstant lhs = true ∨ valueLevel lhs < (identifier : Int)) then
            some (d, lhs)
          else none
      | _, _ => none
  | _ => none

/-- Translation of the conjunct loop of
`CreateIndicesTransformer::rewriteScan`: fold the enumerated conjuncts,
binding a column of the query pattern when `getIndexElement` matches and
the column is still unbound, and otherwise appending the conjunct to the
residual condition list; the flag records whether any conjunct matched. -/
def scanLoop (identifier : Nat) :
    List RamCondition → List (Option RamExpression) → List RamCondition → Bool →
    List (Option RamExpression) × List RamCondition × Bool
  | [], pat, res, ind => (pat, res, ind)
  | c :: cs, pat, res, ind =>
      match getIndexElement identifier c with
      | some ev =>
          if (pat.getD ev.1 none).isNone then
            scanLoop identifier cs (pat.set ev.1 (some ev.2)) res true
          else
            scanLoop identifier cs pat (res ++ [c]) true
      | none => scanLoop identifier cs pat (res ++ [c]) ind

/-- Translation of `CreateIndicesTransformer::rewriteScan`: a scan whose
immediate child is a filter is rewritten into an index scan when at least
one conjunct is indexable; the residual conjuncts are re-wrapped in a
filter below the index scan and the profile text is carried over. Returns
`none` when the scan is left unchanged. -/
def rewriteScan : RamOperation → Option RamOperation
  | .Scan rel arity identifier (.Filter (some fc) inner _) p =>
      let r := scanLoop identifier (getConditions fc) (List.replicate arity none) [] false
      if r.2.2 then
        some (.IndexScan rel arity identifier r.1
          (match r.2.1 with
           | [] => inner
           | c :: rest => .Filter (some (addConditionAll c rest)) inner emptyProfile) p)
      else none
  | _ => none

mutual

/-- Translation of the `dependsOn` helper of
`ConvertExistenceChecksTransformer`: an expression depends on a search
identifier when it reaches an `ElementAccess` of that level through
intrinsic or user-defined operator arguments (record packing is not
traversed by this helper). -/
def dependsOn (identifier : Nat) : RamExpression → Bool
  | .ElementAccess i _ => i == identifier
  | .Number _ => false
  | .IntrinsicOperator _ args => dependsOnList identifier args
  | .UserDefinedOperator _ args => dependsOnList identifier args
  | .PackRecord _ => false

def dependsOnList (identifier : Nat) : List RamExpression → Bool
  | [] => false
  | e :: es => dependsOn identifier e || dependsOnList identifier es

end

mutual

/-- Translation of the project-value worklist of
`convertExistenceChecks`: a project value defeats the existence-check
conversion when, descending through record packs and intrinsic operators,
it reaches a non-constant expression whose level equals the search's
identifier. -/
def projectValueBad (identifier : Nat) : RamExpression → Bool
  | .PackRecord args => projectValueBadList identifier args
  | .IntrinsicOperator _ args => projectValueBadList identifier args
  | .ElementAccess i c =>
      !isConstant (.ElementAccess i c) && (valueLevel (.ElementAccess i c) == (identifier : Int))
  | .Number n => !isConstant (.Number n) && (valueLevel (.Number n) == (identifier : Int))
  | .UserDefinedOperator f args =>
      !isConstant (.UserDefinedOperator f args) &&
        (valueLevel (.UserDefinedOperator f args) == (identifier : Int))

def projectValueBadList (identifier : Nat) : List RamExpression → Bool
  | [] => false
  | e :: es => projectValueBad identifier e || projectValueBadList identifier es

end

/-- First check of `convertExistenceChecks`: some project reachable in the
subtree has a value that defeats the conversion. -/
def hasBadProject (identifier : Nat) : RamOperation → Bool
  | .Scan _ _ _ body _ => hasBadProject identifier body
  | .IndexScan _ _ _ _ body _ => hasBadProject identifier body
  | .OtherSearch _ _ _ body _ => hasBadProject identifier body
  | .Filter _ body _ => hasBadProject identifier body
  | .UnpackRecord _ body => hasBadProject identifier body
  | .Project _ vs => projectValueBadList identifier vs

/-- Second check of `convertExistenceChecks`: some `UnpackRecord` in the
subtree references the search's identifier. -/
def hasUnpackAt (identifier : Nat) : RamOperation → Bool
  | .Scan _ _ _ body _ => hasUnpackAt identifier body
  | .IndexScan _ _ _ _ body _ => hasUnpackAt identifier body
  | .OtherSearch _ _ _ body _ => hasUnpackAt identifier body
  | .Filter _ body _ => hasUnpackAt identifier body
  | .UnpackRecord l body => l == identifier || hasUnpackAt identifier body
  | .Project _ _ => false

mutual

/-- Predicate transformer for the depth-first expression visit of
`convertExistenceChecks`: some expression node of the tree (the node
itself or any nested node) satisfies `f`. -/
def anyExprNode (f : RamExpression → Bool) : RamExpression → Bool
  | .ElementAccess i c => f (.ElementAccess i c)
  | .Number n => f (.Number n)
  | .IntrinsicOperator o args => f (.IntrinsicOperator o args) || anyExprNodeList f args
  | .UserDefinedOperator s args => f (.UserDefinedOperator s args) || anyExprNodeList f args
  | .PackRecord args => f (.PackRecord args) || anyExprNodeList f args

def anyExprNodeList (f : RamExpression → Bool) : List RamExpression → Bool
  | [] => false
  | e :: es => anyExprNode f e || anyExprNodeList f es

end

/-- Expression nodes occurring in a condition (all of them, nested ones
included), tested against `f`. -/
def anyExprInCondition (f : RamExpression → Bool) : RamCondition → Bool
  | .Conjunction l r => anyExprInCondition f l || anyExprInCondition f r
  | .Negation c => anyExprInCondition f c
  | .Constraint _ l r => anyExprNode f l || anyExprNode f r
  | .EmptinessCheck _ => false
  | .ExistenceCheck _ pat => pat.any (fun e => match e with | none => false | some v => anyExprNode f v)

/-- Expression nodes occurring anywhere in an operation subtree
(conditions, patterns and project values included), tested against `f`;
this models `visitDepthFirst` over `RamExpression`. -/
def anyExprInOp (f : RamExpression → Bool) : RamOperation → Bool
  | .Scan _ _ _ body _ => anyExprInOp f body
  | .IndexScan _ _ _ pat body _ =>
      pat.any (fun e => match e with | none => false | some v => anyExprNode f v) || anyExprInOp f body
  | .OtherSearch _ _ _ body _ => anyExprInOp f body
  | .Filter c body _ =>
      (match c with | none => false | some cond => anyExprInCondition f cond) || anyExprInOp f body
  | .UnpackRecord _ body => anyExprInOp f body
  | .Project _ vs => anyExprNodeList f vs

/-- Third check of `convertExistenceChecks`: some expression node in the
subtree depends on the search's identifier. -/
def hasDependentExpr (identifier : Nat) (op : RamOperation) : Bool :=
  anyExprInOp (dependsOn identifier) op

/-- Conjunction of the three sequential checks of
`convertExistenceChecks` deciding whether a relation search is a pure
existence witness. -/
def isExistCheck (identifier : Nat) (body : RamOperation) : Bool :=
  !hasBadProject identifier body && !hasUnpackAt identifier body &&
    !hasDependentExpr identifier body

/-- Whether an expression node is an `ElementAccess` of the given search
identifier. -/
def isAccessAt (identifier : Nat) : RamExpression → Bool
  | .ElementAccess j _ => j == identifier
  | _ => false

/-- Clean characterization used by the specification: the body contains an
`ElementAccess` of the search's identifier somewhere among its expression
nodes. -/
def hasElementAccessAt (identifier : Nat) (op : RamOperation) : Bool :=
  anyExprInOp (isAccessAt identifier) op

/-- Translation of `ConvertExistenceChecksTransformer::convertExistenceChecks`
(the `RamScanCapturer` mapper): each relation search whose body passes the
three checks is replaced by a filter over an emptiness/existence
constraint (a null constraint for an unknown search subtype), keeping the
body and the profile text; the traversal then continues into the body.
The flag reports whether any node was replaced. -/
def convertExistenceChecks : RamOperation → RamOperation × Bool
  | .Scan rel a i body p =>
      let r := convertExistenceChecks body
      if isExistCheck i body then
        (.Filter (some (.Negation (.EmptinessCheck rel))) r.1 p, true)
      else
        (.Scan rel a i r.1 p, r.2)
  | .IndexScan rel a i pat body p =>
      let r := convertExistenceChecks body
      if isExistCheck i body then
        (.Filter (some (.ExistenceCheck rel pat)) r.1 p, true)
      else
        (.IndexScan rel a i pat r.1 p, r.2)
  | .OtherSearch rel a i body p =>
      let r := convertExistenceChecks body
      if isExistCheck i body then
        (.Filter none r.1 p, true)
      else
        (.OtherSearch rel a i r.1 p, r.2)
  | .Filter c body p =>
      let r := convertExistenceChecks body
      (.Filter c r.1 p, r.2)
  | .UnpackRecord l body =>
      let r := convertExistenceChecks body
      (.UnpackRecord l r.1, r.2)
  | .Project rel vs => (.Project rel vs, false)

/-- Profile/debug text attached to an operation (empty for operations that
carry none). -/
def profileText : RamOperation → String
  | .Scan _ _ _ _ p => p
  | .IndexScan _ _ _ _ _ p => p
  | .OtherSearch _ _ _ _ p => p
  | .Filter _ _ p => p
  | .UnpackRecord _ _ => emptyProfile
  | .Project _ _ => emptyProfile

/-- Modelled from the spec: rule-IR arguments as needed by the magic-set
binding store and the aggregation-variable renaming — variables, numeric
constants, record initialisers, aggregators (optional target expression
plus body arguments) and functor applications. -/
inductive AstArgument where
  | Variable (name : String)
  | NumberConstant (value : Int)
  | RecordInit (args : List AstArgument)
  | Aggregator (targetExpression : Option AstArgument) (body : List AstArgument)
  | Functor (name : String) (args : List AstArgument)

mutual

/-- Modelled from the spec: the set of variable names occurring anywhere in
an argument (the `visitDepthFirst` variable collection). -/
def argVars : AstArgument → Finset String
  | .Variable n => {n}
  | .NumberConstant _ => ∅
  | .RecordInit args => argVarsList args
  | .Aggregator t b => argVarsOpt t ∪ argVarsList b
  | .Functor _ args => argVarsList args

def argVarsOpt : Option AstArgument → Finset String
  | none => ∅
  | some a => argVars a

def argVarsList : List AstArgument → Finset String
  | [] => ∅
  | a :: as => argVars a ∪ argVarsList as

end

/-- Dependency map of a binding store: each key owns a set of dependency
sets (a DNF: the key becomes bound once all variables of any one inner set
are bound). -/
abbrev BindingDeps := List (String × Finset (Finset String))

/-- Translation of `BindingStore::addBindingDependency`: insert a
dependency set for a variable, creating the map entry when absent. -/
def addBindingDependency (varName : String) (dependency : Finset String) :
    BindingDeps → BindingDeps
  | [] => [(varName, {dependency})]
  | e :: rest =>
      if varName = e.1 then (e.1, insert dependency e.2) :: rest
      else e :: addBindingDependency varName dependency rest

/-- Helper for `processEqualityBindings`: the record-initialiser branch
adds, for every variable argument of the record, a singleton dependency on
the equated variable. -/
def addRecordDependencies (varName : String) : List AstArgument → BindingDeps → BindingDeps
  | [], deps => deps
  | .Variable n :: rest, deps =>
      addRecordDependencies varName rest (addBindingDependency n {varName} deps)
  | _ :: rest, deps => addRecordDependencies varName rest deps

/-- Translation of `BindingStore::processEqualityBindings`: when the
left-hand side is a variable, it depends on the variables of the
right-hand side, and for a record initialiser each (variable) argument
additionally depends on the left-hand variable alone. -/
def processEqualityBindings (lhs rhs : AstArgument) (deps : BindingDeps) : BindingDeps :=
  match lhs with
  | .Variable v =>
      let d1 := addBindingDependency v (argVars rhs) deps
      (match rhs with
       | .RecordInit args => addRecordDependencies v args d1
       | _ => d1)
  | _ => deps

/-- Translation of `BindingStore::generateBindingDependencies` given the
clause's relevant equality constraints: each constraint is processed in
both orientations. -/
def generateBindingDependencies (eqs : List (AstArgument × AstArgument)) : BindingDeps :=
  eqs.foldl
    (fun deps e => processEqualityBindings e.2 e.1 (processEqualityBindings e.1 e.2 deps)) []

/-- State of `BindingStore`: the bound variables, the separately tracked
bound head variables, and the dependency map. -/
structure BindingStore where
  boundVariables : Finset String
  boundHeadVariables : Finset String
  bindingDependencies : BindingDeps

/-- One entry of a reduction pass of `BindingStore::reduceDependencies`:
an already-bound key or a key with a satisfied (empty) dependency set
leaves the map; otherwise every dependency set is stripped of the bound
variables. -/
def reduceEntry (bound : Finset String) (e : String × Finset (Finset String)) :
    Option (String × Finset (Finset String)) :=
  if e.1 ∈ bound then none
  else if ∅ ∈ e.2 then none
  else some (e.1, e.2.image (fun d => d \ bound))

/-- Whether a reduction pass of `reduceDependencies` would report a change:
some key is already bound, has a satisfied dependency set, or has a
dependency set containing a bound variable. -/
def reduceChanged (s : BindingStore) : Bool :=
  s.bindingDependencies.any (fun e =>
    decide (e.1 ∈ s.boundVariables) || decide (∅ ∈ e.2) ||
      decide (∃ d ∈ e.2, ∃ v ∈ d, v ∈ s.boundVariables))

/-- One full pass of `reduceDependencies`: keys with a satisfied dependency
set move into the bound variables, the rest of the map is rebuilt with
bound variables stripped from every dependency set. -/
def reduceStep (s : BindingStore) : BindingStore :=
  { boundVariables :=
      s.boundVariables ∪
        s.bindingDependencies.foldr
          (fun e acc => if e.1 ∉ s.boundVariables ∧ ∅ ∈ e.2 then insert e.1 acc else acc) ∅
    boundHeadVariables := s.boundHeadVariables
    bindingDependencies := s.bindingDependencies.filterMap (reduceEntry s.boundVariables) }

/-- Termination measure for the reduction recursion: number of map entries
plus the total cardinality of all dependency sets. -/
def depsMeasure (deps : BindingDeps) : Nat :=
  (deps.map (fun e => 1 + e.2.sum (fun d => d.card))).sum

/-- Fuelled fixed-point recursion of `BindingStore::reduceDependencies`:
re-run passes while a pass reports a change. -/
def reduceRunFuel : Nat → BindingStore → BindingStore
  | 0, s => s
  | n + 1, s => if reduceChanged s then reduceRunFuel n (reduceStep s) else s

/-- Reduction run of `reduceDependencies` to convergence; the measure bound
is always enough fuel. -/
def reduceRun (s : BindingStore) : BindingStore :=
  reduceRunFuel (depsMeasure s.bindingDependencies + 1) s

/-- Translation of `BindingStore::reduceDependencies` as a function:
the converged store together with the boolean the call returns (true iff
the first pass changed anything). -/
def reduceDependencies (s : BindingStore) : BindingStore × Bool :=
  (reduceRun s, reduceChanged s)

/-- Translation of the `BindingStore` constructor: seed the dependency map
from the clause's equality constraints and reduce to convergence. -/
def initBindingStore (eqs : List (AstArgument × AstArgument)) : BindingStore :=
  reduceRun
    { boundVariables := ∅
      boundHeadVariables := ∅
      bindingDependencies := generateBindingDependencies eqs }

/-- Translation of `BindingStore::bindVariable`: insert into the bound
variables and reduce to convergence. -/
def bindVariable (s : BindingStore) (varName : String) : BindingStore :=
  reduceRun { s with boundVariables := insert varName s.boundVariables }

/-- Translation of `BindingStore::bindHeadVariable`: insert into the
separate head-variable set; no reduction is run. -/
def bindHeadVariable (s : BindingStore) (varName : String) : BindingStore :=
  { s with boundHeadVariables := insert varName s.boundHeadVariables }

/-- Translation of `BindingStore::isBound`. -/
def isBound (s : BindingStore) (varName : String) : Bool :=
  decide (varName ∈ s.boundVariables) || decide (varName ∈ s.boundHeadVariables)

/-- Translation of `BindingStore::getBoundVariables`. -/
def getBoundVariables (s : BindingStore) : Finset String :=
  s.boundVariables

mutual

/-- Translation of the renaming visit of
`UniqueAggregationVariablesTransformer::transform`: every variable whose
name is among the collected target names is renamed to a leading space,
the old name, and the aggregation counter. -/
def renameAggVar (names : Finset String) (aggNumber : Nat) : AstArgument → AstArgument
  | .Variable n =>
      if n ∈ names then .Variable (" " ++ n ++ toString aggNumber) else .Variable n
  | .NumberConstant v => .NumberConstant v
  | .RecordInit args => .RecordInit (renameAggVarList names aggNumber args)
  | .Aggregator t b =>
      .Aggregator (renameAggVarOpt names aggNumber t) (renameAggVarList names aggNumber b)
  | .Functor f args => .Functor f (renameAggVarList names aggNumber args)

def renameAggVarOpt (names : Finset String) (aggNumber : Nat) :
    Option AstArgument → Option AstArgument
  | none => none
  | some a => some (renameAggVar names aggNumber a)

def renameAggVarList (names : Finset String) (aggNumber : Nat) :
    List AstArgument → List AstArgument
  | [] => []
  | a :: as => renameAggVar names aggNumber a :: renameAggVarList names aggNumber as

end

mutual

/-- Translation of the post-order aggregator visit of
`UniqueAggregationVariablesTransformer::transform`: children are processed
first; an aggregator with a target expression then collects the variable
names of its (already processed) target, renames every matching variable
in the whole aggregator, and increments the aggregation counter; an
aggregator without a target expression is skipped and does not advance the
counter. Returns the rewritten argument, the counter, and the change flag. -/
def processAgg : AstArgument → Nat → AstArgument × Nat × Bool
  | .Variable n, k => (.Variable n, k, false)
  | .NumberConstant v, k => (.NumberConstant v, k, false)
  | .RecordInit args, k =>
      let r := processAggList args k
      (.RecordInit r.1, r.2)
  | .Functor f args, k =>
      let r := processAggList args k
      (.Functor f r.1, r.2)
  | .Aggregator t b, k =>
      let rt := processAggOpt t k
      let rb := processAggList b rt.2.1
      match rt.1 with
      | none => (.Aggregator none rb.1, rb.2.1, rt.2.2 || rb.2.2)
      | some te =>
          let names := argVars te
          (.Aggregator (some (renameAggVar names rb.2.1 te))
              (renameAggVarList names rb.2.1 rb.1),
            rb.2.1 + 1, rt.2.2 || rb.2.2 || decide names.Nonempty)

def processAggOpt : Option AstArgument → Nat → Option AstArgument × Nat × Bool
  | none, k => (none, k, false)
  | some a, k =>
      let r := processAgg a k
      (some r.1, r.2)

def processAggList : List AstArgument → Nat → List AstArgument × Nat × Bool
  | [], k => ([], k, false)
  | a :: as, k =>
      let r := processAgg a k
      let rs := processAggList as r.2.1
      (r.1 :: rs.1, rs.2.1, r.2.2 || rs.2.2)

end

/-- Translation of `UniqueAggregationVariablesTransformer::transform` over
a program given as the list of its top-level arguments: post-order
traversal with the aggregation counter starting at zero; returns the
rewritten program and the change flag. -/
def uniqueAggregationVariables (program : List AstArgument) : List AstArgument × Bool :=
  let r := processAggList program 0
  (r.1, r.2.2)

/-- Whether a condition is a conjunction node (an atomic conjunct is any
non-conjunction condition). -/
def isConjunction : RamCondition → Bool
  | .Conjunction _ _ => true
  | _ => false

/-- Whether a conjunct is indexable for the given identifier and binds the
given pattern column. -/
def bindsColumn (identifier e : Nat) (c : RamCondition) : Bool :=
  match getIndexElement identifier c with
  | some p => p.1 == e
  | none => false

/-- Value bound for a column by the first conjunct of the list that binds
it, if any. -/
def firstBoundValue (identifier e : Nat) (cs : List RamCondition) : Option RamExpression :=
  (cs.find? (bindsColumn identifier e)).bind (fun c => (getIndexElement identifier c).map Prod.snd)

/-- Stability of a binding store under dependency reduction: no key is
bound, no dependency set is satisfied or mentions a bound variable, and a
further `reduceDependencies` call returns the store unchanged with a
`false` change report. -/
def bindingStoreStable (t : BindingStore) : Prop :=
  (∀ e ∈ t.bindingDependencies, e.1 ∉ t.boundVariables) ∧
    (∀ e ∈ t.bindingDependencies, ∅ ∉ e.2) ∧
    (∀ e ∈ t.bindingDependencies, ∀ d ∈ e.2, ∀ v ∈ d, v ∉ t.boundVariables) ∧
    reduceDependencies t = (t, false)

mutual

/-- Variable-name occurrences of an argument in depth-first visit order. -/
def varOccs : AstArgument → List String
  | .Variable n => [n]
  | .NumberConstant _ => []
  | .RecordInit args => varOccsList args
  | .Aggregator t b => varOccsOpt t ++ varOccsList b
  | .Functor _ args => varOccsList args

def varOccsOpt : Option AstArgument → List String
  | none => []
  | some a => varOccs a

def varOccsList : List AstArgument → List String
  | [] => []
  | a :: as => varOccs a ++ varOccsList as

end

mutual

/-- Whether an argument contains an aggregator with a target expression. -/
def hasTargetAgg : AstArgument → Bool
  | .Variable _ => false
  | .NumberConstant _ => false
  | .RecordInit args => hasTargetAggList args
  | .Aggregator none b => hasTargetAggList b
  | .Aggregator (some _) _ => true
  | .Functor _ args => hasTargetAggList args

def hasTargetAggList : List AstArgument → Bool
  | [] => false
  | a :: as => hasTargetAgg a || hasTargetAggList as

end

/-- Sample relation name. -/
def relR : String := "R"

/-- Sample relation name. -/
def relS : String := "S"

/-- Sample variable name. -/
def varX : String := "x"

/-- Sample atomic condition `1 = 1` (level `-1`). -/
def condA : RamCondition := .Constraint .EQ (.Number 1) (.Number 1)

/-- Sample atomic condition `2 = 2` (level `-1`). -/
def condB : RamCondition := .Constraint .EQ (.Number 2) (.Number 2)

/-- Sample atomic condition `3 = 3` (level `-1`). -/
def condC : RamCondition := .Constraint .EQ (.Number 3) (.Number 3)

/-- Sample query for the levelling pass: a scan guarded by a
search-independent filter. -/
def sampleQuery : RamOperation :=
  .Scan relR 1 0
    (.Filter (some condA) (.Project relS [.ElementAccess 0 0]) emptyProfile) emptyProfile

/-- Sample filter condition binding column 0 of the scanned relation
twice, as in the duplicate-column scenario. -/
def sampleDupFilter : RamCondition :=
  .Conjunction (.Constraint .EQ (.ElementAccess 0 0) (.Number 7))
    (.Constraint .EQ (.ElementAccess 0 0) (.Number 9))

/-- Sample scan over the duplicate-column filter. -/
def sampleDupScan : RamOperation :=
  .Scan relR 2 0 (.Filter (some sampleDupFilter) (.Project relS []) emptyProfile) emptyProfile

/-- Sample binding store that already has `x` among its bound variables. -/
def sampleStore : BindingStore :=
  { boundVariables := {varX}, boundHeadVariables := ∅, bindingDependencies := [] }

theorem getConditions_addConditionAll (c : RamCondition) (cs : List RamCondition) :
    getConditions (addConditionAll c cs) = cs.reverse ++ getConditions c := by
  induction cs generalizing c with
  | nil => simp [addConditionAll]
  | cons x xs ih =>
    have h1 : addConditionAll c (x :: xs) = addConditionAll (.Conjunction c x) xs := rfl
    rw [h1, ih]
    simp [getConditions]

theorem getConditions_atom (c : RamCondition) (h : isConjunction c = false) :
    getConditions c = [c] := by
  cases c <;> simp_all [getConditions, isConjunction]

/-- C2 (amended): for a left-leaning conjunction chain over atomic
conjuncts — the shape `addCondition` builds — `getConditions` returns
exactly the atomic conjuncts, in right-to-left order (the rightmost
conjunct first); right-leaning chains are not decomposed into atoms. -/
theorem getConditions_left_chain (c : RamCondition) (cs : List RamCondition)
    (hc : isConjunction c = false) (hcs : ∀ x ∈ cs, isConjunction x = false) :
    getConditions (addConditionAll c cs) = (c :: cs).reverse ∧
      ∀ x ∈ getConditions (addConditionAll c cs), isConjunction x = false := by
  have h1 : getConditions (addConditionAll c cs) = cs.reverse ++ [c] := by
    rw [getConditions_addConditionAll, getConditions_atom c hc]
  refine ⟨by simpa using h1, ?_⟩
  intro x hx
  rw [h1] at hx
  rcases List.mem_append.1 hx with h | h
  · exact hcs x (List.mem_reverse.1 h)
  · have hxc : x = c := by simpa using h
    rw [hxc]
    exact hc

/-- C2 witness: the three-conjunct left-leaning chain is decomposed into
its reversed atoms. -/
theorem getConditions_left_chain_witness :
    (isConjunction condA = false ∧ ∀ x ∈ [condB, condC], isConjunction x = false) ∧
      (getConditions (addConditionAll condA [condB, condC]) = (condA :: [condB, condC]).reverse ∧
        ∀ x ∈ getConditions (addConditionAll condA [condB, condC]), isConjunction x = false) :=
  ⟨⟨rfl, by decide⟩, getConditions_left_chain condA [condB, condC] rfl (by decide)⟩

/-- C2 counterexample: on the right-leaning chain `A ∧ (B ∧ C)` over the
atomic conjuncts `A`, `B`, `C`, the enumerator does not return the atomic
conjuncts in left-to-right order (it returns the unsplit right conjunct
first). -/
theorem getConditions_right_chain_cex :
    getConditions (.Conjunction condA (.Conjunction condB condC)) ≠ [condA, condB, condC] := by
  simp [getConditions, condA, condB, condC]

theorem getIndexElement_acc_acc (i i0 c0 j d : Nat) :
    getIndexElement i (.Constraint .EQ (.ElementAccess i0 c0) (.ElementAccess j d)) =
      if valueLevel (.ElementAccess i0 c0) = (i : Int) ∧
          (isConstant (.ElementAccess j d) = true ∨
            valueLevel (RamExpression.ElementAccess j d) < (i : Int)) then
        some (c0, .ElementAccess j d)
      else if valueLevel (.ElementAccess j d) = (i : Int) ∧
          (isConstant (.ElementAccess i0 c0) = true ∨
            valueLevel (RamExpression.ElementAccess i0 c0) < (i : Int)) then
        some (d, .ElementAccess i0 c0)
      else none := rfl

theorem getIndexElement_acc_other (i i0 c0 : Nat) (rhs : RamExpression)
    (h : ∀ a b, rhs ≠ .ElementAccess a b) :
    getIndexElement i (.Constraint .EQ (.ElementAccess i0 c0) rhs) =
      if valueLevel (.ElementAccess i0 c0) = (i : Int) ∧
          (isConstant rhs = true ∨ valueLevel rhs < (i : Int)) then
        some (c0, rhs)
      else none := by
  cases rhs with
  | ElementAccess a b => exact absurd rfl (h a b)
  | Number v => rfl
  | IntrinsicOperator o as => rfl
  | UserDefinedOperator s as => rfl
  | PackRecord as => rfl

theorem getIndexElement_other_acc (i : Nat) (lhs : RamExpression) (j d : Nat)
    (h : ∀ a b, lhs ≠ .ElementAccess a b) :
    getIndexElement i (.Constraint .EQ lhs (.ElementAccess j d)) =
      if valueLevel (.ElementAccess j d) = (i : Int) ∧
          (isConstant lhs = true ∨ valueLevel lhs < (i : Int)) then
        some (d, lhs)
      else none := by
  cases lhs with
  | ElementAccess a b => exact absurd rfl (h a b)
  | Number v => rfl
  | IntrinsicOperator o as => rfl
  | UserDefinedOperator s as => rfl
  | PackRecord as => rfl

theorem getIndexElement_other_other (i : Nat) (lhs rhs : RamExpression)
    (hl : ∀ a b, lhs ≠ .ElementAccess a b) (hr : ∀ a b, rhs ≠ .ElementAccess a b) :
    getIndexElement i (.Constraint .EQ lhs rhs) = none := by
  cases lhs with
  | ElementAccess a b => exact absurd rfl (hl a b)
  | Number v =>
      cases rhs with
      | ElementAccess a b => exact absurd rfl (hr a b)
      | Number w => rfl
      | IntrinsicOperator o as => rfl
      | UserDefinedOperator s as => rfl
      | PackRecord as => rfl
  | IntrinsicOperator o as =>
      cases rhs with
      | ElementAccess a b => exact absurd rfl (hr a b)
      | Number w => rfl
      | IntrinsicOperator o2 as2 => rfl
      | UserDefinedOperator s2 as2 => rfl
      | PackRecord as2 => rfl
  | UserDefinedOperator s as =>
      cases rhs with
      | ElementAccess a b => exact absurd rfl (hr a b)
      | Number w => rfl
      | IntrinsicOperator o2 as2 => rfl
      | UserDefinedOperator s2 as2 => rfl
      | PackRecord as2 => rfl
  | PackRecord as =>
      cases rhs with
      | ElementAccess a b => exact absurd rfl (hr a b)
      | Number w => rfl
      | IntrinsicOperator o2 as2 => rfl
      | UserDefinedOperator s2 as2 => rfl
      | PackRecord as2 => rfl

theorem getIndexElement_some_iff (i : Nat) (lhs rhs : RamExpression) :
    (∃ col v, getIndexElement i (.Constraint .EQ lhs rhs) = some (col, v)) ↔
      ∃ col,
        (lhs = .ElementAccess i col ∧ (isConstant rhs = true ∨ valueLevel rhs < (i : Int))) ∨
          (rhs = .ElementAccess i col ∧ (isConstant lhs = true ∨ valueLevel lhs < (i : Int))) := by
  by_cases hlhs : ∀ a b, lhs ≠ RamExpression.ElementAccess a b
  · by_cases hrhs : ∀ a b, rhs ≠ RamExpression.ElementAccess a b
    · rw [getIndexElement_other_other i lhs rhs hlhs hrhs]
      constructor
      · rintro ⟨col, v, h⟩
        cases h
      · rintro ⟨col, ⟨heq, _⟩ | ⟨heq, _⟩⟩
        · exact absurd heq (hlhs i col)
        · exact absurd heq (hrhs i col)
    · push_neg at hrhs
      obtain ⟨j, d, rfl⟩ := hrhs
      rw [getIndexElement_other_acc i lhs j d hlhs]
      constructor
      · rintro ⟨col, v, h⟩
        by_cases hQ : valueLevel (RamExpression.ElementAccess j d) = (i : Int) ∧
            (isConstant lhs = true ∨ valueLevel lhs < (i : Int))
        · have hj : j = i := by simpa [valueLevel] using hQ.1
          exact ⟨d, Or.inr ⟨by rw [hj], hQ.2⟩⟩
        · rw [if_neg hQ] at h
          cases h
      · rintro ⟨col, ⟨heq, _⟩ | ⟨heq, hok⟩⟩
        · exact absurd heq (hlhs i col)
        · obtain ⟨rfl, rfl⟩ : j = i ∧ d = col := by
            injection heq with h1 h2
            exact ⟨h1, h2⟩
          exact ⟨d, lhs, by rw [if_pos ⟨by simp [valueLevel], hok⟩]⟩
  · push_neg at hlhs
    obtain ⟨i0, c0, rfl⟩ := hlhs
    by_cases hrhs : ∀ a b, rhs ≠ RamExpression.ElementAccess a b
    · rw [getIndexElement_acc_other i i0 c0 rhs hrhs]
      constructor
      · rintro ⟨col, v, h⟩
        by_cases hP : valueLevel (RamExpression.ElementAccess i0 c0) = (i : Int) ∧
            (isConstant rhs = true ∨ valueLevel rhs < (i : Int))
        · have hi : i0 = i := by simpa [valueLevel] using hP.1
          exact ⟨c0, Or.inl ⟨by rw [hi], hP.2⟩⟩
        · rw [if_neg hP] at h
          cases h
      · rintro ⟨col, ⟨heq, hok⟩ | ⟨heq, _⟩⟩
        · obtain ⟨rfl, rfl⟩ : i0 = i ∧ c0 = col := by
            injection heq with h1 h2
            exact ⟨h1, h2⟩
          exact ⟨c0, rhs, by rw [if_pos ⟨by simp [valueLevel], hok⟩]⟩
        · exact absurd heq (hrhs i col)
    · push_neg at hrhs
      obtain ⟨j, d, rfl⟩ := hrhs
      rw [getIndexElement_acc_acc]
      constructor
      · rintro ⟨col, v, h⟩
        by_cases hP : valueLevel (RamExpression.ElementAccess i0 c0) = (i : Int) ∧
            (isConstant (RamExpression.ElementAccess j d) = true ∨
              valueLevel (RamExpression.ElementAccess j d) < (i : Int))
        · have hi : i0 = i := by simpa [valueLevel] using hP.1
          exact ⟨c0, Or.inl ⟨by rw [hi], hP.2⟩⟩
        · rw [if_neg hP] at h
          by_cases hQ : valueLevel (RamExpression.ElementAccess j d) = (i : Int) ∧
              (isConstant (RamExpression.ElementAccess i0 c0) = true ∨
                valueLevel (RamExpression.ElementAccess i0 c0) < (i : Int))
          · have hj : j = i := by simpa [valueLevel] using hQ.1
            exact ⟨d, Or.inr ⟨by rw [hj], hQ.2⟩⟩
          · rw [if_neg hQ] at h
            cases h
      · rintro ⟨col, ⟨heq, hok⟩ | ⟨heq, hok⟩⟩
        · obtain ⟨rfl, rfl⟩ : i0 = i ∧ c0 = col := by
            injection heq with h1 h2
            exact ⟨h1, h2⟩
          exact ⟨c0, .ElementAccess j d, by rw [if_pos ⟨by simp [valueLevel], hok⟩]⟩
        · have hjd : j = i ∧ d = col := by
            injection heq with h1 h2
            exact ⟨h1, h2⟩
          by_cases hP : valueLevel (RamExpression.ElementAccess i0 c0) = (i : Int) ∧
              (isConstant (RamExpression.ElementAccess j d) = true ∨
                valueLevel (RamExpression.ElementAccess j d) < (i : Int))
          · exact ⟨c0, .ElementAccess j d, by rw [if_pos hP]⟩
          · exact ⟨d, .ElementAccess i0 c0,
              by rw [if_neg hP, if_pos ⟨by simp [valueLevel, hjd.1], hok⟩]⟩

/-- C3: `getIndexElement` yields a pattern binding if and only if the
conjunct is an `EQ` constraint with one side an `ElementAccess` at the
scan's identifier and the other side constant or of strictly lower level;
in particular an `EQ` between two element accesses at the scan's level
yields no binding. -/
theorem getIndexElement_spec (identifier : Nat) (c : RamCondition) :
    ((∃ col v, getIndexElement identifier c = some (col, v)) ↔
      (∃ a b col, c = .Constraint .EQ a b ∧
        ((a = .ElementAccess identifier col ∧
            (isConstant b = true ∨ valueLevel b < (identifier : Int))) ∨
          (b = .ElementAccess identifier col ∧
            (isConstant a = true ∨ valueLevel a < (identifier : Int)))))) ∧
      ∀ c1 c2, getIndexElement identifier
          (.Constraint .EQ (.ElementAccess identifier c1) (.ElementAccess identifier c2)) =
        none := by
  constructor
  · cases c with
    | Constraint op lhs rhs =>
        cases op with
        | EQ =>
            rw [getIndexElement_some_iff]
            constructor
            · rintro ⟨col, hd⟩
              exact ⟨lhs, rhs, col, rfl, hd⟩
            · rintro ⟨a, b, col, heq, hd⟩
              obtain ⟨rfl, rfl⟩ : lhs = a ∧ rhs = b := by
                injection heq with h1 h2 h3
                exact ⟨h2, h3⟩
              exact ⟨col, hd⟩
        | NE => simp [getIndexElement]
        | LT => simp [getIndexElement]
        | LE => simp [getIndexElement]
        | GT => simp [getIndexElement]
        | GE => simp [getIndexElement]
    | Conjunction l r => simp [getIndexElement]
    | Negation d => simp [getIndexElement]
    | EmptinessCheck rel => simp [getIndexElement]
    | ExistenceCheck rel pat => simp [getIndexElement]
  · intro c1 c2
    rw [getIndexElement_acc_acc]
    simp [valueLevel, isConstant]

theorem getD_set_self {α : Type} (l : List (Option α)) (e : Nat) (v : Option α)
    (he : e < l.length) : (l.set e v).getD e none = v := by
  induction l generalizing e with
  | nil => simp at he
  | cons a l ih =>
      cases e with
      | zero => rfl
      | succ e => exact ih e (by simpa using he)

theorem getD_set_ne {α : Type} (l : List (Option α)) (e e' : Nat) (v : Option α)
    (h : e ≠ e') : (l.set e' v).getD e none = l.getD e none := by
  induction l generalizing e e' with
  | nil => rfl
  | cons a l ih =>
      cases e' with
      | zero =>
          cases e with
          | zero => exact absurd rfl h
          | succ e => rfl
      | succ e' =>
          cases e with
          | zero => rfl
          | succ e => exact ih e e' (by omega)

theorem countP_set_some {α : Type} (l : List (Option α)) (e : Nat) (v : α)
    (he : e < l.length) (h : (l.getD e none).isNone = true) :
    (l.set e (some v)).countP Option.isSome = l.countP Option.isSome + 1 := by
  induction l generalizing e with
  | nil => simp at he
  | cons a l ih =>
      cases e with
      | zero =>
          have ha : a = none := by
            cases a with
            | none => rfl
            | some b => simp [List.getD] at h
          simp [ha, List.countP_cons]
      | succ e =>
          have := ih e (by simpa using he) (by simpa [List.getD] using h)
          simp only [List.set, List.countP_cons]
          omega

theorem getD_replicate_none {α : Type} (n e : Nat) :
    (List.replicate n (none : Option α)).getD e none = none := by
  induction n generalizing e with
  | zero => rfl
  | succ n ih =>
      cases e with
      | zero => rfl
      | succ e => exact ih e

theorem countP_isSome_replicate_none {α : Type} (n : Nat) :
    (List.replicate n (none : Option α)).countP Option.isSome = 0 := by
  induction n with
  | zero => rfl
  | succ n ih =>
      rw [List.replicate_succ, List.countP_cons]
      simp [ih]

theorem scanLoop_invariant (i : Nat) (cs : List RamCondition)
    (pat : List (Option RamExpression)) (res : List RamCondition) (ind : Bool)
    (hcols : ∀ c ∈ cs, ∀ e v, getIndexElement i c = some (e, v) → e < pat.length) :
    (scanLoop i cs pat res ind).1.length = pat.length ∧
      (∃ res2, (scanLoop i cs pat res ind).2.1 = res ++ res2 ∧ res2.Sublist cs) ∧
      ((scanLoop i cs pat res ind).2.1.length +
          (scanLoop i cs pat res ind).1.countP Option.isSome =
        res.length + pat.countP Option.isSome + cs.length) ∧
      (∀ e, e < pat.length →
        (scanLoop i cs pat res ind).1.getD e none =
          (if (pat.getD e none).isSome then pat.getD e none else firstBoundValue i e cs)) ∧
      (∀ e, e < pat.length →
        (scanLoop i cs pat res ind).2.1.countP (bindsColumn i e) +
            (if (pat.getD e none).isNone ∧ (cs.find? (bindsColumn i e)).isSome then 1 else 0) =
          res.countP (bindsColumn i e) + cs.countP (bindsColumn i e)) := by
  induction cs generalizing pat res ind with
  | nil =>
      refine ⟨rfl, ⟨[], by simp [scanLoop], List.Sublist.slnil⟩, by simp [scanLoop], ?_, ?_⟩
      · intro e he
        simp only [scanLoop, firstBoundValue, List.find?]
        cases hp : pat.getD e none <;> simp
      · intro e he
        simp [scanLoop, List.find?]
  | cons c cs ih =>
      cases hgie : getIndexElement i c with
      | some ev =>
          obtain ⟨e0, v0⟩ := ev
          have he0 : e0 < pat.length := hcols c (List.mem_cons_self c cs) e0 v0 hgie
          have hbc : bindsColumn i e0 c = true := by simp [bindsColumn, hgie]
          have hbc' : ∀ e, e ≠ e0 → bindsColumn i e c = false := by
            intro e hne
            simp [bindsColumn, hgie]
            omega
          cases h0 : (pat.getD e0 none).isNone with
          | true =>
              have hstep : scanLoop i (c :: cs) pat res ind =
                  scanLoop i cs (pat.set e0 (some v0)) res true := by
                simp only [scanLoop, hgie]
                rw [if_pos h0]
              have hcols' : ∀ c' ∈ cs, ∀ e v, getIndexElement i c' = some (e, v) →
                  e < (pat.set e0 (some v0)).length := by
                intro c' hc' e v hg
                simpa using hcols c' (List.mem_cons_of_mem c hc') e v hg
              obtain ⟨ih1, ⟨res2, hres2, hsub⟩, ih3, ih4, ih5⟩ :=
                ih (pat.set e0 (some v0)) res true hcols'
              rw [hstep]
              refine ⟨by simpa using ih1, ⟨res2, hres2, hsub.cons c⟩, ?_, ?_, ?_⟩
              · rw [countP_set_some pat e0 v0 he0 h0] at ih3
                simp only [List.length_cons]
                omega
              · intro e he
                have := ih4 e (by simpa using he)
                rw [this]
                by_cases heq : e = e0
                · subst heq
                  rw [getD_set_self pat e (some v0) he0]
                  have hfind : (c :: cs).find? (bindsColumn i e) = some c :=
                    List.find?_cons_of_pos cs hbc
                  have hnone : pat.getD e none = none := Option.isNone_iff_eq_none.1 h0
                  rw [hnone]
                  simp [firstBoundValue, hfind, hgie]
                · rw [getD_set_ne pat e e0 (some v0) heq]
                  have hfind : (c :: cs).find? (bindsColumn i e) = cs.find? (bindsColumn i e) :=
                    List.find?_cons_of_neg cs (by simp [hbc' e heq])
                  simp [firstBoundValue, hfind]
              · intro e he
                have h5 := ih5 e (by simpa using he)
                by_cases heq : e = e0
                · subst heq
                  rw [getD_set_self pat e (some v0) he0] at h5
                  have hfind : (c :: cs).find? (bindsColumn i e) = some c :=
                    List.find?_cons_of_pos cs hbc
                  have hcond : (pat.getD e none).isNone = true ∧
                      ((c :: cs).find? (bindsColumn i e)).isSome = true := by
                    refine ⟨h0, ?_⟩
                    rw [hfind]
                    rfl
                  rw [if_pos hcond]
                  simp only [Option.isNone_some, Bool.false_eq_true, false_and, if_false,
                    add_zero] at h5
                  rw [List.countP_cons_of_pos _ _ hbc]
                  omega
                · rw [getD_set_ne pat e e0 (some v0) heq] at h5
                  have hfind : (c :: cs).find? (bindsColumn i e) = cs.find? (bindsColumn i e) :=
                    List.find?_cons_of_neg cs (by simp [hbc' e heq])
                  rw [hfind, List.countP_cons_of_neg _ _ (by simp [hbc' e heq])]
                  omega
          | false =>
              have hstep : scanLoop i (c :: cs) pat res ind =
                  scanLoop i cs pat (res ++ [c]) true := by
                simp only [scanLoop, hgie]
                have h0x : ¬((pat.getD e0 none).isNone = true) := by
                  rw [h0]
                  exact Bool.false_ne_true
                rw [if_neg h0x]
              have hcols' : ∀ c' ∈ cs, ∀ e v, getIndexElement i c' = some (e, v) →
                  e < pat.length := fun c' hc' e v hg =>
                hcols c' (List.mem_cons_of_mem c hc') e v hg
              obtain ⟨ih1, ⟨res2, hres2, hsub⟩, ih3, ih4, ih5⟩ :=
                ih pat (res ++ [c]) true hcols'
              rw [hstep]
              refine ⟨ih1, ⟨c :: res2, by simpa using hres2, hsub.cons₂ c⟩, ?_, ?_, ?_⟩
              · simp only [List.length_append, List.length_cons, List.length_nil] at ih3 ⊢
                omega
              · intro e he
                rw [ih4 e he]
                by_cases heq : e = e0
                · subst heq
                  have hss : (pat.getD e none).isSome = true := by
                    cases hp : pat.getD e none
                    · rw [hp] at h0
                      simp at h0
                    · simp
                  rw [if_pos hss, if_pos hss]
                · have hfind : (c :: cs).find? (bindsColumn i e) = cs.find? (bindsColumn i e) :=
                    List.find?_cons_of_neg cs (by simp [hbc' e heq])
                  simp [firstBoundValue, hfind]
              · intro e he
                have h5 := ih5 e he
                by_cases heq : e = e0
                · subst heq
                  have hps : (pat.getD e none).isNone = false := h0
                  rw [hps] at h5 ⊢
                  simp only [Bool.false_eq_true, false_and, if_false, add_zero] at h5 ⊢
                  rw [List.countP_cons_of_pos _ _ hbc]
                  rw [List.countP_append, List.countP_cons_of_pos _ _ hbc,
                    List.countP_nil] at h5
                  omega
                · have hfind : (c :: cs).find? (bindsColumn i e) = cs.find? (bindsColumn i e) :=
                    List.find?_cons_of_neg cs (by simp [hbc' e heq])
                  rw [hfind, List.countP_cons_of_neg _ _ (by simp [hbc' e heq])]
                  rw [List.countP_append, List.countP_cons_of_neg _ _ (by simp [hbc' e heq]),
                    List.countP_nil] at h5
                  omega
      | none =>
          have hbc' : ∀ e, bindsColumn i e c = false := by
            intro e
            simp [bindsColumn, hgie]
          have hstep : scanLoop i (c :: cs) pat res ind =
              scanLoop i cs pat (res ++ [c]) ind := by
            simp only [scanLoop, hgie]
          have hcols' : ∀ c' ∈ cs, ∀ e v, getIndexElement i c' = some (e, v) →
              e < pat.length := fun c' hc' e v hg =>
            hcols c' (List.mem_cons_of_mem c hc') e v hg
          obtain ⟨ih1, ⟨res2, hres2, hsub⟩, ih3, ih4, ih5⟩ := ih pat (res ++ [c]) ind hcols'
          rw [hstep]
          refine ⟨ih1, ⟨c :: res2, by simpa using hres2, hsub.cons₂ c⟩, ?_, ?_, ?_⟩
          · simp only [List.length_append, List.length_cons, List.length_nil] at ih3 ⊢
            omega
          · intro e he
            rw [ih4 e he]
            have hfind : (c :: cs).find? (bindsColumn i e) = cs.find? (bindsColumn i e) :=
              List.find?_cons_of_neg cs (by simp [hbc' e])
            simp [firstBoundValue, hfind]
          · intro e he
            have h5 := ih5 e he
            have hfind : (c :: cs).find? (bindsColumn i e) = cs.find? (bindsColumn i e) :=
              List.find?_cons_of_neg cs (by simp [hbc' e])
            rw [hfind, List.countP_cons_of_neg _ _ (by simp [hbc' e])]
            rw [List.countP_append, List.countP_cons_of_neg _ _ (by simp [hbc' e]),
              List.countP_nil] at h5
            omega

/-- C4: in the conjunct loop of `rewriteScan` (starting from the all-unbound
pattern of the relation's arity and an empty residual), the residual is a
sublist of the enumerated conjuncts (each kept unchanged, in order), no
conjunct is dropped (residual length plus bound pattern columns equals the
number of conjuncts), each bound column carries the value of the first
conjunct in enumeration order that binds it, and for each column exactly
one binding conjunct is consumed — every later conjunct binding that
column stays in the residual. -/
theorem rewriteScan_collision_spec (i arity : Nat) (cs : List RamCondition)
    (hcols : ∀ c ∈ cs, ∀ e v, getIndexElement i c = some (e, v) → e < arity) :
    ((scanLoop i cs (List.replicate arity none) [] false).2.1).Sublist cs ∧
      ((scanLoop i cs (List.replicate arity none) [] false).2.1.length +
          (scanLoop i cs (List.replicate arity none) [] false).1.countP Option.isSome =
        cs.length) ∧
      (∀ e, e < arity →
        (scanLoop i cs (List.replicate arity none) [] false).1.getD e none =
          firstBoundValue i e cs) ∧
      (∀ e, e < arity →
        (scanLoop i cs (List.replicate arity none) [] false).2.1.countP (bindsColumn i e) +
            (if (cs.find? (bindsColumn i e)).isSome then 1 else 0) =
          cs.countP (bindsColumn i e)) := by
  have hlen : (List.replicate arity (none : Option RamExpression)).length = arity :=
    List.length_replicate arity none
  have hcols' : ∀ c ∈ cs, ∀ e v, getIndexElement i c = some (e, v) →
      e < (List.replicate arity (none : Option RamExpression)).length := by
    rw [hlen]
    exact hcols
  obtain ⟨_, ⟨res2, hres2, hsub⟩, h3, h4, h5⟩ :=
    scanLoop_invariant i cs (List.replicate arity none) [] false hcols'
  refine ⟨by rw [hres2]; simpa using hsub, ?_, ?_, ?_⟩
  · rw [countP_isSome_replicate_none] at h3
    simpa using h3
  · intro e he
    have := h4 e (by rw [hlen]; exact he)
    rw [this, getD_replicate_none]
    rfl
  · intro e he
    have := h5 e (by rw [hlen]; exact he)
    rw [getD_replicate_none] at this
    simpa using this

/-- C4 witness: the duplicate-column filter `col0 = 9 (enumerated first),
col0 = 7`: the first enumerated binding supplies the pattern value and the
other stays in the residual. -/
theorem rewriteScan_collision_spec_witness :
    (∀ c ∈ getConditions sampleDupFilter, ∀ e v,
        getIndexElement 0 c = some (e, v) → e < 2) ∧
      (((scanLoop 0 (getConditions sampleDupFilter)
            (List.replicate 2 none) [] false).2.1).Sublist (getConditions sampleDupFilter) ∧
        ((scanLoop 0 (getConditions sampleDupFilter)
              (List.replicate 2 none) [] false).2.1.length +
            (scanLoop 0 (getConditions sampleDupFilter)
              (List.replicate 2 none) [] false).1.countP Option.isSome =
          (getConditions sampleDupFilter).length) ∧
        (∀ e, e < 2 →
          (scanLoop 0 (getConditions sampleDupFilter)
              (List.replicate 2 none) [] false).1.getD e none =
            firstBoundValue 0 e (getConditions sampleDupFilter)) ∧
        (∀ e, e < 2 →
          (scanLoop 0 (getConditions sampleDupFilter)
                (List.replicate 2 none) [] false).2.1.countP (bindsColumn 0 e) +
              (if ((getConditions sampleDupFilter).find? (bindsColumn 0 e)).isSome then 1
               else 0) =
            (getConditions sampleDupFilter).countP (bindsColumn 0 e))) := by
  have hcols : ∀ c ∈ getConditions sampleDupFilter, ∀ e v,
      getIndexElement 0 c = some (e, v) → e < 2 := by
    intro c hc e v h
    have hcs : getConditions sampleDupFilter =
        [.Constraint .EQ (.ElementAccess 0 0) (.Number 9),
          .Constraint .EQ (.ElementAccess 0 0) (.Number 7)] := rfl
    rw [hcs] at hc
    rcases List.mem_cons.1 hc with rfl | hc2
    · have hv : getIndexElement 0 (RamCondition.Constraint .EQ
          (.ElementAccess 0 0) (.Number 9)) = some (0, .Number 9) := rfl
      rw [hv] at h
      simp only [Option.some.injEq, Prod.mk.injEq] at h
      omega
    · rcases List.mem_cons.1 hc2 with rfl | hc3
      · have hv : getIndexElement 0 (RamCondition.Constraint .EQ
            (.ElementAccess 0 0) (.Number 7)) = some (0, .Number 7) := rfl
        rw [hv] at h
        simp only [Option.some.injEq, Prod.mk.injEq] at h
        omega
      · simp at hc3
  exact ⟨hcols, rewriteScan_collision_spec 0 2 (getConditions sampleDupFilter) hcols⟩

theorem bor_true {a b : Bool} (h : (a || b) = true) : a = true ∨ b = true := by
  cases a
  · exact Or.inr (by simpa using h)
  · exact Or.inl rfl

theorem band_true {a b : Bool} (h : (a && b) = true) : a = true ∧ b = true := by
  cases a
  · simp at h
  · exact ⟨rfl, by simpa using h⟩

theorem anyExprNode_self (g : RamExpression → Bool) (e : RamExpression) (h : g e = true) :
    anyExprNode g e = true := by
  cases e <;> simp [anyExprNode, h]

mutual

theorem anyExprNode_bind (f g : RamExpression → Bool)
    (hfg : ∀ x, f x = true → anyExprNode g x = true) :
    ∀ e, anyExprNode f e = true → anyExprNode g e = true
  | .ElementAccess i c, h => hfg _ h
  | .Number n, h => hfg _ h
  | .IntrinsicOperator o args, h => by
      rcases bor_true h with h1 | h1
      · exact hfg _ h1
      · have := anyExprNodeList_bind f g hfg args h1
        simp only [anyExprNode, Bool.or_eq_true]
        exact Or.inr this
  | .UserDefinedOperator s args, h => by
      rcases bor_true h with h1 | h1
      · exact hfg _ h1
      · have := anyExprNodeList_bind f g hfg args h1
        simp only [anyExprNode, Bool.or_eq_true]
        exact Or.inr this
  | .PackRecord args, h => by
      rcases bor_true h with h1 | h1
      · exact hfg _ h1
      · have := anyExprNodeList_bind f g hfg args h1
        simp only [anyExprNode, Bool.or_eq_true]
        exact Or.inr this

theorem anyExprNodeList_bind (f g : RamExpression → Bool)
    (hfg : ∀ x, f x = true → anyExprNode g x = true) :
    ∀ es, anyExprNodeList f es = true → anyExprNodeList g es = true
  | e :: es, h => by
      rcases bor_true h with h1 | h1
      · have := anyExprNode_bind f g hfg e h1
        simp only [anyExprNodeList, Bool.or_eq_true]
        exact Or.inl this
      · have := anyExprNodeList_bind f g hfg es h1
        simp only [anyExprNodeList, Bool.or_eq_true]
        exact Or.inr this

end

mutual

theorem dependsOn_to_access (i : Nat) :
    ∀ e, dependsOn i e = true → anyExprNode (isAccessAt i) e = true
  | .ElementAccess j c, h => h
  | .Number n, h => by simp [dependsOn] at h
  | .IntrinsicOperator o args, h => by
      have := dependsOnList_to_access i args h
      simp only [anyExprNode, Bool.or_eq_true]
      exact Or.inr this
  | .UserDefinedOperator s args, h => by
      have := dependsOnList_to_access i args h
      simp only [anyExprNode, Bool.or_eq_true]
      exact Or.inr this
  | .PackRecord args, h => by simp [dependsOn] at h

theorem dependsOnList_to_access (i : Nat) :
    ∀ es, dependsOnList i es = true → anyExprNodeList (isAccessAt i) es = true
  | e :: es, h => by
      rcases bor_true h with h1 | h1
      · have := dependsOn_to_access i e h1
        simp only [anyExprNodeList, Bool.or_eq_true]
        exact Or.inl this
      · have := dependsOnList_to_access i es h1
        simp only [anyExprNodeList, Bool.or_eq_true]
        exact Or.inr this

end

theorem access_to_dependsOn (i : Nat) (x : RamExpression) (h : isAccessAt i x = true) :
    dependsOn i x = true := by
  cases x <;> simp_all [isAccessAt, dependsOn]

mutual

theorem valueLevel_attained (i : Nat) :
    ∀ e, valueLevel e = (i : Int) → anyExprNode (isAccessAt i) e = true
  | .ElementAccess j c, h => by
      have hj0 : (j : Int) = (i : Int) := h
      have hj : j = i := by exact_mod_cast hj0
      simp [anyExprNode, isAccessAt, hj]
  | .Number n, h => by
      have h0 : (-1 : Int) = (i : Int) := h
      omega
  | .IntrinsicOperator o args, h => by
      have := valueLevelList_attained i args h
      simp only [anyExprNode, Bool.or_eq_true]
      exact Or.inr this
  | .UserDefinedOperator s args, h => by
      have := valueLevelList_attained i args h
      simp only [anyExprNode, Bool.or_eq_true]
      exact Or.inr this
  | .PackRecord args, h => by
      have := valueLevelList_attained i args h
      simp only [anyExprNode, Bool.or_eq_true]
      exact Or.inr this

theorem valueLevelList_attained (i : Nat) :
    ∀ es, valueLevelList es = (i : Int) → anyExprNodeList (isAccessAt i) es = true
  | [], h => by
      have h0 : (-1 : Int) = (i : Int) := h
      omega
  | e :: es, h => by
      have h0 : max (valueLevel e) (valueLevelList es) = (i : Int) := h
      rcases max_choice (valueLevel e) (valueLevelList es) with hm | hm <;> rw [hm] at h0
      · have := valueLevel_attained i e h0
        simp only [anyExprNodeList, Bool.or_eq_true]
        exact Or.inl this
      · have := valueLevelList_attained i es h0
        simp only [anyExprNodeList, Bool.or_eq_true]
        exact Or.inr this

end

mutual

theorem projectValueBad_to_access (i : Nat) :
    ∀ e, projectValueBad i e = true → anyExprNode (isAccessAt i) e = true
  | .ElementAccess j c, h => by
      have h0 : (!isConstant (RamExpression.ElementAccess j c) &&
          (valueLevel (RamExpression.ElementAccess j c) == (i : Int))) = true := h
      have hl : valueLevel (RamExpression.ElementAccess j c) = (i : Int) := by
        simpa using (band_true h0).2
      exact valueLevel_attained i _ hl
  | .Number n, h => by simp [projectValueBad, isConstant] at h
  | .IntrinsicOperator o args, h => by
      have := projectValueBadList_to_access i args h
      simp only [anyExprNode, Bool.or_eq_true]
      exact Or.inr this
  | .UserDefinedOperator s args, h => by
      have h0 : (!isConstant (RamExpression.UserDefinedOperator s args) &&
          (valueLevel (RamExpression.UserDefinedOperator s args) == (i : Int))) = true := h
      have hl : valueLevel (RamExpression.UserDefinedOperator s args) = (i : Int) := by
        simpa using (band_true h0).2
      exact valueLevel_attained i _ hl
  | .PackRecord args, h => by
      have := projectValueBadList_to_access i args h
      simp only [anyExprNode, Bool.or_eq_true]
      exact Or.inr this

theorem projectValueBadList_to_access (i : Nat) :
    ∀ es, projectValueBadList i es = true → anyExprNodeList (isAccessAt i) es = true
  | e :: es, h => by
      rcases bor_true h with h1 | h1
      · have := projectValueBad_to_access i e h1
        simp only [anyExprNodeList, Bool.or_eq_true]
        exact Or.inl this
      · have := projectValueBadList_to_access i es h1
        simp only [anyExprNodeList, Bool.or_eq_true]
        exact Or.inr this

end

theorem anyExprInCondition_bind (f g : RamExpression → Bool)
    (hfg : ∀ x, f x = true → anyExprNode g x = true) :
    ∀ c, anyExprInCondition f c = true → anyExprInCondition g c = true
  | .Conjunction l r, h => by
      rcases bor_true h with h1 | h1
      · have := anyExprInCondition_bind f g hfg l h1
        simp only [anyExprInCondition, Bool.or_eq_true]
        exact Or.inl this
      · have := anyExprInCondition_bind f g hfg r h1
        simp only [anyExprInCondition, Bool.or_eq_true]
        exact Or.inr this
  | .Negation c, h => anyExprInCondition_bind f g hfg c h
  | .Constraint op l r, h => by
      rcases bor_true h with h1 | h1
      · have := anyExprNode_bind f g hfg l h1
        simp only [anyExprInCondition, Bool.or_eq_true]
        exact Or.inl this
      · have := anyExprNode_bind f g hfg r h1
        simp only [anyExprInCondition, Bool.or_eq_true]
        exact Or.inr this
  | .EmptinessCheck rel, h => by simp [anyExprInCondition] at h
  | .ExistenceCheck rel pat, h => by
      simp only [anyExprInCondition, List.any_eq_true] at h ⊢
      obtain ⟨x, hx, hfx⟩ := h
      refine ⟨x, hx, ?_⟩
      cases x with
      | none => simp at hfx
      | some v => exact anyExprNode_bind f g hfg v hfx

theorem anyExprInOp_bind (f g : RamExpression → Bool)
    (hfg : ∀ x, f x = true → anyExprNode g x = true) :
    ∀ op, anyExprInOp f op = true → anyExprInOp g op = true
  | .Scan rel a i body p, h => anyExprInOp_bind f g hfg body h
  | .IndexScan rel a i pat body p, h => by
      rcases bor_true h with h1 | h1
      · simp only [List.any_eq_true] at h1
        obtain ⟨x, hx, hfx⟩ := h1
        simp only [anyExprInOp, Bool.or_eq_true, List.any_eq_true]
        cases x with
        | none => simp at hfx
        | some v => exact Or.inl ⟨some v, hx, anyExprNode_bind f g hfg v hfx⟩
      · have := anyExprInOp_bind f g hfg body h1
        simp only [anyExprInOp, Bool.or_eq_true]
        exact Or.inr this
  | .OtherSearch rel a i body p, h => anyExprInOp_bind f g hfg body h
  | .Filter c body p, h => by
      rcases bor_true h with h1 | h1
      · simp only [anyExprInOp, Bool.or_eq_true]
        cases c with
        | none => simp at h1
        | some cond => exact Or.inl (anyExprInCondition_bind f g hfg cond h1)
      · have := anyExprInOp_bind f g hfg body h1
        simp only [anyExprInOp, Bool.or_eq_true]
        exact Or.inr this
  | .UnpackRecord l body, h => anyExprInOp_bind f g hfg body h
  | .Project rel vs, h => anyExprNodeList_bind f g hfg vs h

theorem hasBadProject_to_access (i : Nat) :
    ∀ op, hasBadProject i op = true → hasElementAccessAt i op = true
  | .Scan rel a j body p, h => hasBadProject_to_access i body h
  | .IndexScan rel a j pat body p, h => by
      have := hasBadProject_to_access i body h
      simp only [hasElementAccessAt, anyExprInOp, Bool.or_eq_true] at this ⊢
      exact Or.inr this
  | .OtherSearch rel a j body p, h => hasBadProject_to_access i body h
  | .Filter c body p, h => by
      have := hasBadProject_to_access i body h
      simp only [hasElementAccessAt, anyExprInOp, Bool.or_eq_true] at this ⊢
      exact Or.inr this
  | .UnpackRecord l body, h => hasBadProject_to_access i body h
  | .Project rel vs, h => projectValueBadList_to_access i vs h

theorem hasDependentExpr_iff_access (i : Nat) (op : RamOperation) :
    hasDependentExpr i op = hasElementAccessAt i op := by
  cases hacc : hasElementAccessAt i op with
  | true =>
      exact anyExprInOp_bind (isAccessAt i) (dependsOn i)
        (fun x hx => anyExprNode_self _ _ (access_to_dependsOn i x hx)) op hacc
  | false =>
      cases hdep : hasDependentExpr i op with
      | false => rfl
      | true =>
          have := anyExprInOp_bind (dependsOn i) (isAccessAt i)
            (fun x hx => dependsOn_to_access i x hx) op hdep
          rw [hasElementAccessAt] at hacc
          rw [this] at hacc
          cases hacc

theorem isExistCheck_eq_clean (i : Nat) (b : RamOperation) :
    isExistCheck i b = (!hasElementAccessAt i b && !hasUnpackAt i b) := by
  cases hacc : hasElementAccessAt i b with
  | true =>
      have hdep : hasDependentExpr i b = true := by
        rw [hasDependentExpr_iff_access]
        exact hacc
      simp [isExistCheck, hdep]
  | false =>
      have hdep : hasDependentExpr i b = false := by
        rw [hasDependentExpr_iff_access]
        exact hacc
      have hbad : hasBadProject i b = false := by
        cases hb : hasBadProject i b with
        | false => rfl
        | true =>
            have := hasBadProject_to_access i b hb
            rw [this] at hacc
            cases hacc
      simp [isExistCheck, hdep, hbad]

/-- C5: a relation search passes the three checks of
`convertExistenceChecks` precisely when its body contains no expression at
the search's level (transitively through packs and operators) and no
`UnpackRecord` of that level; when the checks pass, a plain scan is
replaced by a filter over `Negation(EmptinessCheck(rel))` and an index
scan by a filter over `ExistenceCheck(rel, pattern)`, keeping the body (on
which the traversal then continues); otherwise the search node is left
unchanged. -/
theorem convertExistenceChecks_spec (rel : String) (a i : Nat)
    (pat : List (Option RamExpression)) (b : RamOperation) (p : String) :
    isExistCheck i b = (!hasElementAccessAt i b && !hasUnpackAt i b) ∧
      (convertExistenceChecks (.Scan rel a i b p)).1 =
        (if !hasElementAccessAt i b && !hasUnpackAt i b then
          .Filter (some (.Negation (.EmptinessCheck rel))) (convertExistenceChecks b).1 p
         else .Scan rel a i (convertExistenceChecks b).1 p) ∧
      (convertExistenceChecks (.IndexScan rel a i pat b p)).1 =
        (if !hasElementAccessAt i b && !hasUnpackAt i b then
          .Filter (some (.ExistenceCheck rel pat)) (convertExistenceChecks b).1 p
         else .IndexScan rel a i pat (convertExistenceChecks b).1 p) := by
  refine ⟨isExistCheck_eq_clean i b, ?_, ?_⟩
  · simp only [convertExistenceChecks, isExistCheck_eq_clean]
    split_ifs <;> rfl
  · simp only [convertExistenceChecks, isExistCheck_eq_clean]
    split_ifs <;> rfl

/-- C9: a relation search that is neither a scan nor an index scan still
gets rewritten when its body passes the checks: the replacement is a
filter whose condition is null (no constraint is constructed for such a
subtype), with the body kept and the modification flag set; it is not left
unchanged. -/
theorem convertExistenceChecks_other_subtype (rel : String) (a i : Nat)
    (b : RamOperation) (p : String) :
    convertExistenceChecks (.OtherSearch rel a i b p) =
      (if !hasElementAccessAt i b && !hasUnpackAt i b then
        (.Filter none (convertExistenceChecks b).1 p, true)
       else (.OtherSearch rel a i (convertExistenceChecks b).1 p,
         (convertExistenceChecks b).2)) := by
  simp only [convertExistenceChecks, isExistCheck_eq_clean]

/-- C8: replacement nodes carry the profile/debug text of the search they
replace — the index scan built by `rewriteScan` and the filters built by
`convertExistenceChecks` take over the original search's profile text
unchanged (and unchanged nodes keep theirs). -/
theorem profileText_preserved (rel : String) (a i : Nat)
    (pat : List (Option RamExpression)) (b : RamOperation) (p : String) :
    profileText ((rewriteScan (.Scan rel a i b p)).getD (.Scan rel a i b p)) = p ∧
      profileText (convertExistenceChecks (.Scan rel a i b p)).1 = p ∧
      profileText (convertExistenceChecks (.IndexScan rel a i pat b p)).1 = p := by
  refine ⟨?_, ?_, ?_⟩
  · rcases b with _ | _ | _ | ⟨c, inner, fp⟩ | _ | _ <;>
      [skip; skip; skip; rcases c with _ | fc; skip; skip] <;>
      (simp [rewriteScan, profileText]; try (split_ifs <;> simp [profileText]))
  · simp only [convertExistenceChecks]
    split_ifs <;> simp [profileText]
  · simp only [convertExistenceChecks]
    split_ifs <;> simp [profileText]

mutual

theorem varOccs_renameAggVar (ns : Finset String) (k : Nat) :
    ∀ a, varOccs (renameAggVar ns k a) =
      (varOccs a).map (fun n => if n ∈ ns then " " ++ n ++ toString k else n)
  | .Variable n => by
      by_cases h : n ∈ ns <;> simp [renameAggVar, varOccs, h]
  | .NumberConstant v => by simp [renameAggVar, varOccs]
  | .RecordInit args => by
      simp only [renameAggVar, varOccs]
      exact varOccsList_renameAggVarList ns k args
  | .Aggregator t b => by
      simp only [renameAggVar, varOccs, List.map_append]
      rw [varOccsOpt_renameAggVarOpt ns k t, varOccsList_renameAggVarList ns k b]
  | .Functor f args => by
      simp only [renameAggVar, varOccs]
      exact varOccsList_renameAggVarList ns k args

theorem varOccsOpt_renameAggVarOpt (ns : Finset String) (k : Nat) :
    ∀ t, varOccsOpt (renameAggVarOpt ns k t) =
      (varOccsOpt t).map (fun n => if n ∈ ns then " " ++ n ++ toString k else n)
  | none => rfl
  | some a => varOccs_renameAggVar ns k a

theorem varOccsList_renameAggVarList (ns : Finset String) (k : Nat) :
    ∀ as, varOccsList (renameAggVarList ns k as) =
      (varOccsList as).map (fun n => if n ∈ ns then " " ++ n ++ toString k else n)
  | [] => rfl
  | a :: as => by
      simp only [renameAggVarList, varOccsList, List.map_append]
      rw [varOccs_renameAggVar ns k a, varOccsList_renameAggVarList ns k as]

end

mutual

theorem processAgg_counter_le : ∀ (a : AstArgument) (k : Nat), k ≤ (processAgg a k).2.1
  | .Variable n, k => le_refl k
  | .NumberConstant v, k => le_refl k
  | .RecordInit args, k => processAggList_counter_le args k
  | .Functor f args, k => processAggList_counter_le args k
  | .Aggregator t b, k => by
      have h1 := processAggOpt_counter_le t k
      have h2 := processAggList_counter_le b (processAggOpt t k).2.1
      simp only [processAgg]
      cases ht : (processAggOpt t k).1 with
      | none => exact le_trans h1 h2
      | some te =>
          simp only
          exact le_trans (le_trans h1 h2) (Nat.le_succ _)

theorem processAggOpt_counter_le : ∀ (t : Option AstArgument) (k : Nat),
    k ≤ (processAggOpt t k).2.1
  | none, k => le_refl k
  | some a, k => processAgg_counter_le a k

theorem processAggList_counter_le : ∀ (as : List AstArgument) (k : Nat),
    k ≤ (processAggList as k).2.1
  | [], k => le_refl k
  | a :: as, k =>
      le_trans (processAgg_counter_le a k)
        (processAggList_counter_le as (processAgg a k).2.1)

end

mutual

theorem processAgg_no_target : ∀ (a : AstArgument) (k : Nat),
    hasTargetAgg a = false → processAgg a k = (a, k, false)
  | .Variable n, k, _ => rfl
  | .NumberConstant v, k, _ => rfl
  | .RecordInit args, k, h => by
      have hl := processAggList_no_target args k (by simpa [hasTargetAgg] using h)
      simp [processAgg, hl]
  | .Functor f args, k, h => by
      have hl := processAggList_no_target args k (by simpa [hasTargetAgg] using h)
      simp [processAgg, hl]
  | .Aggregator none b, k, h => by
      have hl := processAggList_no_target b k (by simpa [hasTargetAgg] using h)
      simp [processAgg, processAggOpt, hl]
  | .Aggregator (some t) b, k, h => by simp [hasTargetAgg] at h

theorem processAggList_no_target : ∀ (as : List AstArgument) (k : Nat),
    hasTargetAggList as = false → processAggList as k = (as, k, false)
  | [], k, _ => rfl
  | a :: as, k, h => by
      have h2 : hasTargetAgg a = false ∧ hasTargetAggList as = false := by
        have := h
        simp only [hasTargetAggList, Bool.or_eq_false_iff] at this
        exact this
      have ha := processAgg_no_target a k h2.1
      have has := processAggList_no_target as k h2.2
      simp [processAggList, ha, has]

end

/-- C7: the renaming visit of `UniqueAggregationVariablesTransformer`
renames, among the variable occurrences of the visited tree, exactly those
whose name is in the collected target-name set, each to the leading-space
fresh name built from the old name and the aggregation counter; the
counter never decreases, an aggregator with a target expression and
aggregator-free children performs exactly this renaming with the names of
its target and then increments the counter, and a program without
target-carrying aggregators is returned unchanged with `changed = false`. -/
theorem uniqueAggregationVariables_spec (ns : Finset String) (k : Nat)
    (a te : AstArgument) (b0 : List AstArgument) (p : List AstArgument) :
    (varOccs (renameAggVar ns k a) =
        (varOccs a).map (fun n => if n ∈ ns then " " ++ n ++ toString k else n)) ∧
      k ≤ (processAgg a k).2.1 ∧
      (hasTargetAgg te = false → hasTargetAggList b0 = false →
        processAgg (.Aggregator (some te) b0) k =
          (.Aggregator (some (renameAggVar (argVars te) k te))
              (renameAggVarList (argVars te) k b0),
            k + 1, decide (argVars te).Nonempty)) ∧
      (hasTargetAggList p = false → uniqueAggregationVariables p = (p, false)) := by
  refine ⟨varOccs_renameAggVar ns k a, processAgg_counter_le a k, ?_, ?_⟩
  · intro hte hb0
    have h1 := processAgg_no_target te k hte
    have h2 := processAggList_no_target b0 k hb0
    simp [processAgg, processAggOpt, h1, h2]
  · intro hp
    have h1 := processAggList_no_target p 0 hp
    simp [uniqueAggregationVariables, h1]

theorem reduceChanged_eq_false_iff (s : BindingStore) :
    reduceChanged s = false ↔
      ∀ e ∈ s.bindingDependencies, e.1 ∉ s.boundVariables ∧ ∅ ∉ e.2 ∧
        ∀ d ∈ e.2, ∀ v ∈ d, v ∉ s.boundVariables := by
  rw [reduceChanged, List.any_eq_false]
  constructor
  · intro h e he
    have h0 := h e he
    simp only [Bool.or_eq_true, decide_eq_true_eq, not_or] at h0
    push_neg at h0
    exact ⟨h0.1.1, h0.1.2, h0.2⟩
  · intro h e he
    obtain ⟨h1, h2, h3⟩ := h e he
    simp only [Bool.or_eq_true, decide_eq_true_eq, not_or]
    push_neg
    exact ⟨⟨h1, h2⟩, h3⟩

theorem reduceEntry_eq_self (bound : Finset String) (e : String × Finset (Finset String))
    (h1 : e.1 ∉ bound) (h2 : ∅ ∉ e.2) (h3 : ∀ d ∈ e.2, ∀ v ∈ d, v ∉ bound) :
    reduceEntry bound e = some e := by
  rw [reduceEntry, if_neg h1, if_neg h2]
  have himg : e.2.image (fun d => d \ bound) = e.2 := by
    have : e.2.image (fun d => d \ bound) = e.2.image id := by
      apply Finset.image_congr
      intro d hd
      simp only [id]
      rw [Finset.sdiff_eq_self_iff_disjoint, Finset.disjoint_left]
      exact fun a ha => h3 d hd a ha
    rw [this, Finset.image_id]
  rw [himg]

theorem newly_empty (bound : Finset String) (deps : BindingDeps)
    (h : ∀ e ∈ deps, ∅ ∉ e.2) :
    deps.foldr (fun e acc => if e.1 ∉ bound ∧ ∅ ∈ e.2 then insert e.1 acc else acc)
      (∅ : Finset String) = ∅ := by
  induction deps with
  | nil => rfl
  | cons a t ih =>
      simp only [List.foldr]
      rw [if_neg (by
        intro hc
        exact h a (List.mem_cons_self a t) hc.2)]
      exact ih (fun e he => h e (List.mem_cons_of_mem a he))

theorem reduceStep_eq_self (s : BindingStore) (h : reduceChanged s = false) :
    reduceStep s = s := by
  obtain ⟨bv, bh, deps⟩ := s
  have hprops := (reduceChanged_eq_false_iff _).1 h
  simp only [reduceStep]
  congr 1
  · rw [newly_empty bv deps (fun e he => (hprops e he).2.1), Finset.union_empty]
  · have : ∀ e ∈ deps, reduceEntry bv e = some e := fun e he =>
      reduceEntry_eq_self bv e (hprops e he).1 (hprops e he).2.1 (hprops e he).2.2
    clear hprops h
    induction deps with
    | nil => rfl
    | cons a t ih =>
        rw [List.filterMap_cons, this a (List.mem_cons_self a t)]
        rw [ih (fun e he => this e (List.mem_cons_of_mem a he))]

theorem sum_image_card_le (ds : Finset (Finset String)) (bound : Finset String) :
    (ds.image (fun d => d \ bound)).sum Finset.card ≤ ds.sum (fun d => (d \ bound).card) := by
  classical
  induction ds using Finset.induction_on with
  | empty => simp
  | @insert a t ha ih =>
      by_cases hmem : (a \ bound) ∈ t.image (fun d => d \ bound)
      · rw [Finset.image_insert, Finset.insert_eq_self.2 hmem, Finset.sum_insert ha]
        exact le_trans ih (Nat.le_add_left _ _)
      · rw [Finset.image_insert, Finset.sum_insert hmem, Finset.sum_insert ha]
        exact Nat.add_le_add_left ih _

theorem reduceEntry_measure_le (bound : Finset String) (e : String × Finset (Finset String)) :
    (match reduceEntry bound e with
      | none => 0
      | some e2 => 1 + e2.2.sum Finset.card) ≤ 1 + e.2.sum Finset.card := by
  rw [reduceEntry]
  split_ifs with h1 h2
  · exact Nat.zero_le _
  · exact Nat.zero_le _
  · show 1 + (e.2.image (fun d => d \ bound)).sum Finset.card ≤ 1 + e.2.sum Finset.card
    have hle1 := sum_image_card_le e.2 bound
    have hle2 : e.2.sum (fun d => (d \ bound).card) ≤ e.2.sum Finset.card :=
      Finset.sum_le_sum (fun d _ => Finset.card_le_card (Finset.sdiff_subset))
    omega

theorem reduceEntry_measure_lt (bound : Finset String) (e : String × Finset (Finset String))
    (hbad : e.1 ∈ bound ∨ ∅ ∈ e.2 ∨ ∃ d ∈ e.2, ∃ v ∈ d, v ∈ bound) :
    (match reduceEntry bound e with
      | none => 0
      | some e2 => 1 + e2.2.sum Finset.card) < 1 + e.2.sum Finset.card := by
  rw [reduceEntry]
  split_ifs with h1 h2
  · show 0 < 1 + e.2.sum Finset.card
    omega
  · show 0 < 1 + e.2.sum Finset.card
    omega
  · rcases hbad with hb | hb | ⟨d0, hd0, v, hv, hvb⟩
    · exact absurd hb h1
    · exact absurd hb h2
    · show 1 + (e.2.image (fun d => d \ bound)).sum Finset.card < 1 + e.2.sum Finset.card
      have hle1 := sum_image_card_le e.2 bound
      have hlt : e.2.sum (fun d => (d \ bound).card) < e.2.sum Finset.card := by
        apply Finset.sum_lt_sum
        · exact fun d _ => Finset.card_le_card (Finset.sdiff_subset)
        · refine ⟨d0, hd0, Finset.card_lt_card ?_⟩
          rw [Finset.ssubset_iff_of_subset (Finset.sdiff_subset)]
          exact ⟨v, hv, by simp [hvb]⟩
      omega

theorem depsMeasure_filterMap (bound : Finset String) (deps : BindingDeps) :
    depsMeasure (deps.filterMap (reduceEntry bound)) =
      (deps.map (fun e =>
        match reduceEntry bound e with
        | none => 0
        | some e2 => 1 + e2.2.sum Finset.card)).sum := by
  induction deps with
  | nil => rfl
  | cons a t ih =>
      rw [List.filterMap_cons]
      cases hre : reduceEntry bound a with
      | none => simpa [hre] using ih
      | some e2 =>
          simp only [hre, List.map_cons, List.sum_cons]
          rw [← ih]
          rfl

theorem depsMeasure_reduceStep_lt (s : BindingStore) (h : reduceChanged s = true) :
    depsMeasure (reduceStep s).bindingDependencies < depsMeasure s.bindingDependencies := by
  have hbad : ∃ e ∈ s.bindingDependencies,
      e.1 ∈ s.boundVariables ∨ ∅ ∈ e.2 ∨ ∃ d ∈ e.2, ∃ v ∈ d, v ∈ s.boundVariables := by
    rw [reduceChanged, List.any_eq_true] at h
    obtain ⟨e, he, hbool⟩ := h
    refine ⟨e, he, ?_⟩
    rcases bor_true hbool with h1 | h1
    · rcases bor_true h1 with h2 | h2
      · exact Or.inl (of_decide_eq_true h2)
      · exact Or.inr (Or.inl (of_decide_eq_true h2))
    · exact Or.inr (Or.inr (of_decide_eq_true h1))
  have hdeps : (reduceStep s).bindingDependencies =
      s.bindingDependencies.filterMap (reduceEntry s.boundVariables) := rfl
  rw [hdeps, depsMeasure_filterMap, depsMeasure]
  obtain ⟨e0, he0, hbad0⟩ := hbad
  apply List.sum_lt_sum
  · exact fun e _ => reduceEntry_measure_le s.boundVariables e
  · exact ⟨e0, he0, reduceEntry_measure_lt s.boundVariables e0 hbad0⟩

theorem reduceRunFuel_stable (n : Nat) :
    ∀ s : BindingStore, depsMeasure s.bindingDependencies < n →
      reduceChanged (reduceRunFuel n s) = false := by
  induction n with
  | zero => exact fun s h => absurd h (Nat.not_lt_zero _)
  | succ n ih =>
      intro s h
      rw [reduceRunFuel]
      cases hch : reduceChanged s with
      | false => exact hch
      | true =>
          simp only [if_true]
          exact ih (reduceStep s)
            (Nat.lt_of_lt_of_le (depsMeasure_reduceStep_lt s hch) (Nat.lt_succ_iff.1 h))

theorem reduceChanged_reduceRun_false (s : BindingStore) :
    reduceChanged (reduceRun s) = false :=
  reduceRunFuel_stable _ s (Nat.lt_succ_self _)

theorem reduceRun_of_stable (s : BindingStore) (h : reduceChanged s = false) :
    reduceRun s = s := by
  rw [reduceRun, reduceRunFuel, if_neg (by rw [h]; exact Bool.false_ne_true)]

theorem reduceDependencies_fix (s : BindingStore) :
    reduceDependencies (reduceRun s) = (reduceRun s, false) := by
  rw [reduceDependencies, reduceRun_of_stable _ (reduceChanged_reduceRun_false s),
    reduceChanged_reduceRun_false]

theorem bindingStoreStable_reduceRun (s : BindingStore) :
    bindingStoreStable (reduceRun s) := by
  have hprops := (reduceChanged_eq_false_iff _).1 (reduceChanged_reduceRun_false s)
  exact ⟨fun e he => (hprops e he).1, fun e he => (hprops e he).2.1,
    fun e he => (hprops e he).2.2, reduceDependencies_fix s⟩

theorem mem_newly (bound : Finset String) (deps : BindingDeps)
    (e : String × Finset (Finset String)) (he : e ∈ deps)
    (h1 : e.1 ∉ bound) (h2 : ∅ ∈ e.2) :
    e.1 ∈ deps.foldr (fun e acc => if e.1 ∉ bound ∧ ∅ ∈ e.2 then insert e.1 acc else acc)
      (∅ : Finset String) := by
  induction deps with
  | nil => cases he
  | cons a t ih =>
      rcases List.mem_cons.1 he with rfl | ht
      · simp only [List.foldr]
        rw [if_pos ⟨h1, h2⟩]
        exact Finset.mem_insert_self _ _
      · simp only [List.foldr]
        split_ifs with hc
        · exact Finset.mem_insert_of_mem (ih ht)
        · exact ih ht

theorem reduceStep_keys (s : BindingStore) (e : String × Finset (Finset String))
    (he : e ∈ s.bindingDependencies) :
    (∃ e2 ∈ (reduceStep s).bindingDependencies, e2.1 = e.1) ∨
      e.1 ∈ (reduceStep s).boundVariables := by
  by_cases h1 : e.1 ∈ s.boundVariables
  · exact Or.inr (Finset.mem_union_left _ h1)
  · by_cases h2 : ∅ ∈ e.2
    · exact Or.inr (Finset.mem_union_right _
        (mem_newly s.boundVariables s.bindingDependencies e he h1 h2))
    · refine Or.inl ⟨(e.1, e.2.image (fun d => d \ s.boundVariables)), ?_, rfl⟩
      exact List.mem_filterMap.2 ⟨e, he, by rw [reduceEntry, if_neg h1, if_neg h2]⟩

theorem reduceRunFuel_bound_mono (n : Nat) :
    ∀ s : BindingStore, s.boundVariables ⊆ (reduceRunFuel n s).boundVariables := by
  induction n with
  | zero => exact fun s => Finset.Subset.refl _
  | succ n ih =>
      intro s
      rw [reduceRunFuel]
      split_ifs
      · exact Finset.Subset.trans Finset.subset_union_left (ih (reduceStep s))
      · exact Finset.Subset.refl _

theorem reduceRunFuel_keys (n : Nat) :
    ∀ (s : BindingStore) (e : String × Finset (Finset String)),
      e ∈ s.bindingDependencies →
      (∃ e2 ∈ (reduceRunFuel n s).bindingDependencies, e2.1 = e.1) ∨
        e.1 ∈ (reduceRunFuel n s).boundVariables := by
  induction n with
  | zero => exact fun s e he => Or.inl ⟨e, he, rfl⟩
  | succ n ih =>
      intro s e he
      rw [reduceRunFuel]
      split_ifs
      · rcases reduceStep_keys s e he with ⟨e2, he2, hkey⟩ | hb
        · rcases ih (reduceStep s) e2 he2 with ⟨e3, he3, hkey3⟩ | hb3
          · exact Or.inl ⟨e3, he3, by rw [hkey3, hkey]⟩
          · exact Or.inr (by rw [← hkey]; exact hb3)
        · exact Or.inr (reduceRunFuel_bound_mono n (reduceStep s) hb)
      · exact Or.inl ⟨e, he, rfl⟩

theorem reduceRun_keys (s : BindingStore) (e : String × Finset (Finset String))
    (he : e ∈ s.bindingDependencies) :
    (∃ e2 ∈ (reduceRun s).bindingDependencies, e2.1 = e.1) ∨
      e.1 ∈ (reduceRun s).boundVariables :=
  reduceRunFuel_keys _ s e he

/-- C6: after construction and after every `bindVariable` call the binding
store is a stable fixed point: no tracked key is bound, no dependency set
is satisfied or mentions a bound variable (keys whose dependency set
became satisfied were moved into the bound variables — every seeded key is
still tracked or bound), and a further `reduceDependencies` call leaves
the store unchanged and returns `false`. -/
theorem bindingStore_stable_spec (eqs : List (AstArgument × AstArgument))
    (s : BindingStore) (v : String) :
    bindingStoreStable (initBindingStore eqs) ∧
      bindingStoreStable (bindVariable s v) ∧
      (∀ e ∈ generateBindingDependencies eqs,
        (∃ e2 ∈ (initBindingStore eqs).bindingDependencies, e2.1 = e.1) ∨
          e.1 ∈ (initBindingStore eqs).boundVariables) ∧
      (∀ e ∈ s.bindingDependencies,
        (∃ e2 ∈ (bindVariable s v).bindingDependencies, e2.1 = e.1) ∨
          e.1 ∈ (bindVariable s v).boundVariables) := by
  refine ⟨bindingStoreStable_reduceRun _, bindingStoreStable_reduceRun _, ?_, ?_⟩
  · intro e he
    exact reduceRun_keys _ e he
  · intro e he
    exact reduceRun_keys _ e he

/-- C10 (amended): `bindHeadVariable` only inserts into the separate
`boundHeadVariables` set: afterwards `isBound` holds for the variable,
while `getBoundVariables`, `boundVariables` and `bindingDependencies` are
unchanged (so the variable appears in `getBoundVariables()` only if it was
already in `boundVariables`), and no dependency reduction is run. -/
theorem bindHeadVariable_spec (s : BindingStore) (v : String) :
    isBound (bindHeadVariable s v) v = true ∧
      getBoundVariables (bindHeadVariable s v) = getBoundVariables s ∧
      (bindHeadVariable s v).bindingDependencies = s.bindingDependencies ∧
      (bindHeadVariable s v).boundVariables = s.boundVariables := by
  refine ⟨?_, rfl, rfl, rfl⟩
  simp [isBound, bindHeadVariable]

/-- C10 counterexample: on a store that already has `x` bound,
`bindHeadVariable x` leaves `x` in `getBoundVariables()`, contradicting
the claim that the variable is not included there afterwards. -/
theorem bindHeadVariable_cex :
    varX ∈ getBoundVariables (bindHeadVariable sampleStore varX) := by
  simp [getBoundVariables, bindHeadVariable, sampleStore]

theorem opSize_pos : ∀ b : RamOperation, 0 < opSize b
  | .Scan _ _ _ _ _ => Nat.succ_pos _
  | .IndexScan _ _ _ _ _ _ => Nat.succ_pos _
  | .OtherSearch _ _ _ _ _ => Nat.succ_pos _
  | .Filter _ _ _ => Nat.succ_pos _
  | .UnpackRecord _ _ => Nat.succ_pos _
  | .Project _ _ => Nat.succ_pos _

theorem collectFilters_size (lvl : Int) : ∀ b, opSize (collectFilters lvl b).1 ≤ opSize b
  | .Filter (some c) body p => by
      simp only [collectFilters]
      split_ifs with h
      · exact le_trans (collectFilters_size lvl body) (Nat.le_succ _)
      · simp only [opSize]
        exact Nat.succ_le_succ (collectFilters_size lvl body)
  | .Filter none body p => by
      simp only [collectFilters, opSize]
      exact Nat.succ_le_succ (collectFilters_size lvl body)
  | .Scan rel a i body p => by
      simp only [collectFilters, opSize]
      exact Nat.succ_le_succ (collectFilters_size lvl body)
  | .IndexScan rel a i pat body p => by
      simp only [collectFilters, opSize]
      exact Nat.succ_le_succ (collectFilters_size lvl body)
  | .OtherSearch rel a i body p => by
      simp only [collectFilters, opSize]
      exact Nat.succ_le_succ (collectFilters_size lvl body)
  | .UnpackRecord l body => by
      simp only [collectFilters, opSize]
      exact Nat.succ_le_succ (collectFilters_size lvl body)
  | .Project rel vs => le_refl _

theorem collectFilters_nil_of (lvl : Int) :
    ∀ b, (collectFilters lvl b).2 = [] → (collectFilters lvl b).1 = b
  | .Filter (some c) body p => by
      simp only [collectFilters]
      split_ifs with h
      · intro hc
        cases hc
      · intro hc
        rw [collectFilters_nil_of lvl body hc]
  | .Filter none body p => by
      simp only [collectFilters]
      intro hc
      rw [collectFilters_nil_of lvl body hc]
  | .Scan rel a i body p => by
      simp only [collectFilters]
      intro hc
      rw [collectFilters_nil_of lvl body hc]
  | .IndexScan rel a i pat body p => by
      simp only [collectFilters]
      intro hc
      rw [collectFilters_nil_of lvl body hc]
  | .OtherSearch rel a i body p => by
      simp only [collectFilters]
      intro hc
      rw [collectFilters_nil_of lvl body hc]
  | .UnpackRecord l body => by
      simp only [collectFilters]
      intro hc
      rw [collectFilters_nil_of lvl body hc]
  | .Project rel vs => fun _ => rfl

theorem collectFilters_exhaust (lvl : Int) :
    ∀ b, (collectFilters lvl ((collectFilters lvl b).1)).2 = []
  | .Filter (some c) body p => by
      simp only [collectFilters]
      split_ifs with h
      · exact collectFilters_exhaust lvl body
      · simp only [collectFilters, if_neg h]
        exact collectFilters_exhaust lvl body
  | .Filter none body p => by
      simp only [collectFilters]
      exact collectFilters_exhaust lvl body
  | .Scan rel a i body p => by
      simp only [collectFilters]
      exact collectFilters_exhaust lvl body
  | .IndexScan rel a i pat body p => by
      simp only [collectFilters]
      exact collectFilters_exhaust lvl body
  | .OtherSearch rel a i body p => by
      simp only [collectFilters]
      exact collectFilters_exhaust lvl body
  | .UnpackRecord l body => by
      simp only [collectFilters]
      exact collectFilters_exhaust lvl body
  | .Project rel vs => rfl

theorem collectFilters_levels (lvl : Int) :
    ∀ b, ∀ c ∈ (collectFilters lvl b).2, conditionLevel c = lvl
  | .Filter (some c0) body p => by
      simp only [collectFilters]
      split_ifs with h
      · intro c hc
        rcases List.mem_cons.1 hc with rfl | hc2
        · exact h
        · exact collectFilters_levels lvl body c hc2
      · exact collectFilters_levels lvl body
  | .Filter none body p => by
      simp only [collectFilters]
      exact collectFilters_levels lvl body
  | .Scan rel a i body p => by
      simp only [collectFilters]
      exact collectFilters_levels lvl body
  | .IndexScan rel a i pat body p => by
      simp only [collectFilters]
      exact collectFilters_levels lvl body
  | .OtherSearch rel a i body p => by
      simp only [collectFilters]
      exact collectFilters_levels lvl body
  | .UnpackRecord l body => by
      simp only [collectFilters]
      exact collectFilters_levels lvl body
  | .Project rel vs => by
      simp [collectFilters]

theorem addConditionAll_level (lvl : Int) :
    ∀ (cs : List RamCondition) (c : RamCondition), conditionLevel c = lvl →
      (∀ x ∈ cs, conditionLevel x = lvl) → conditionLevel (addConditionAll c cs) = lvl
  | [], c, hc, _ => hc
  | x :: xs, c, hc, hcs => by
      have hx : conditionLevel x = lvl := hcs x (List.mem_cons_self x xs)
      have hconj : conditionLevel (RamCondition.Conjunction c x) = lvl := by
        simp [conditionLevel, hc, hx]
      exact addConditionAll_level lvl xs (.Conjunction c x) hconj
        (fun y hy => hcs y (List.mem_cons_of_mem x hy))

theorem collectFilters_filter_some_nil (lvl : Int) (c : RamCondition) (body : RamOperation)
    (p : String) (h : (collectFilters lvl (.Filter (some c) body p)).2 = []) :
    conditionLevel c ≠ lvl ∧ (collectFilters lvl body).2 = [] := by
  by_cases hl : conditionLevel c = lvl
  · rw [collectFilters, if_pos hl] at h
    cases h
  · rw [collectFilters, if_neg hl] at h
    exact ⟨hl, h⟩

theorem collectFilters_pres_nil (lvl j : Int) :
    ∀ b, (collectFilters lvl b).2 = [] →
      (collectFilters lvl ((collectFilters j b).1)).2 = []
  | .Filter (some c) body p => by
      intro h
      obtain ⟨hne, hbody⟩ := collectFilters_filter_some_nil lvl c body p h
      by_cases hj : conditionLevel c = j
      · rw [collectFilters, if_pos hj]
        exact collectFilters_pres_nil lvl j body hbody
      · rw [collectFilters, if_neg hj]
        simp only [collectFilters, if_neg hne]
        exact collectFilters_pres_nil lvl j body hbody
  | .Filter none body p => by
      intro h
      simp only [collectFilters] at h ⊢
      exact collectFilters_pres_nil lvl j body h
  | .Scan rel a i body p => by
      intro h
      simp only [collectFilters] at h ⊢
      exact collectFilters_pres_nil lvl j body h
  | .IndexScan rel a i pat body p => by
      intro h
      simp only [collectFilters] at h ⊢
      exact collectFilters_pres_nil lvl j body h
  | .OtherSearch rel a i body p => by
      intro h
      simp only [collectFilters] at h ⊢
      exact collectFilters_pres_nil lvl j body h
  | .UnpackRecord l body => by
      intro h
      simp only [collectFilters] at h ⊢
      exact collectFilters_pres_nil lvl j body h
  | .Project rel vs => fun _ => rfl

theorem collectFilters_insertFilter_nil (lvl : Int) (b : RamOperation)
    (hb : (collectFilters lvl b).2 = []) :
    collectFilters lvl (insertFilter [] b) = (b, []) := by
  rw [insertFilter]
  exact Prod.ext (collectFilters_nil_of lvl b hb) hb

theorem collectFilters_insertFilter_cons (lvl : Int) (c : RamCondition)
    (rest : List RamCondition) (b : RamOperation)
    (hb : (collectFilters lvl b).2 = [])
    (hc : conditionLevel (addConditionAll c rest) = lvl) :
    collectFilters lvl (insertFilter (c :: rest) b) = (b, [addConditionAll c rest]) := by
  rw [insertFilter]
  rw [collectFilters, if_pos hc]
  show ((collectFilters lvl b).1, addConditionAll c rest :: (collectFilters lvl b).2) = _
  rw [collectFilters_nil_of lvl b hb, hb]

theorem hoistSearchesFuel_congr :
    ∀ (n m : Nat) (b : RamOperation), opSize b ≤ n → opSize b ≤ m →
      hoistSearchesFuel n b = hoistSearchesFuel m b := by
  intro n
  induction n with
  | zero =>
      intro m b hn _
      exact absurd (Nat.lt_of_lt_of_le (opSize_pos b) hn) (Nat.lt_irrefl 0)
  | succ n ih =>
      intro m b hn hm
      cases m with
      | zero => exact absurd (Nat.lt_of_lt_of_le (opSize_pos b) hm) (Nat.lt_irrefl 0)
      | succ m =>
          cases b with
          | Scan rel a i body p =>
              simp only [hoistSearchesFuel]
              rw [ih m ((collectFilters (i : Int) body).1)
                (le_trans (collectFilters_size _ _) (by simpa [opSize] using hn))
                (le_trans (collectFilters_size _ _) (by simpa [opSize] using hm))]
          | IndexScan rel a i pat body p =>
              simp only [hoistSearchesFuel]
              rw [ih m ((collectFilters (i : Int) body).1)
                (le_trans (collectFilters_size _ _) (by simpa [opSize] using hn))
                (le_trans (collectFilters_size _ _) (by simpa [opSize] using hm))]
          | OtherSearch rel a i body p =>
              simp only [hoistSearchesFuel]
              rw [ih m ((collectFilters (i : Int) body).1)
                (le_trans (collectFilters_size _ _) (by simpa [opSize] using hn))
                (le_trans (collectFilters_size _ _) (by simpa [opSize] using hm))]
          | Filter c body p =>
              simp only [hoistSearchesFuel]
              rw [ih m body (by simpa [opSize] using hn) (by simpa [opSize] using hm)]
          | UnpackRecord l body =>
              simp only [hoistSearchesFuel]
              rw [ih m body (by simpa [opSize] using hn) (by simpa [opSize] using hm)]
          | Project rel vs => rfl

theorem hoistSearches_scan (rel : String) (a i : Nat) (body : RamOperation) (p : String) :
    hoistSearches (.Scan rel a i body p) =
      (.Scan rel a i (insertFilter ((collectFilters (i : Int) body).2)
          ((hoistSearches ((collectFilters (i : Int) body).1)).1)) p,
        !((collectFilters (i : Int) body).2).isEmpty ||
          (hoistSearches ((collectFilters (i : Int) body).1)).2) := by
  show hoistSearchesFuel (opSize body + 1) (.Scan rel a i body p) = _
  simp only [hoistSearchesFuel]
  rw [hoistSearchesFuel_congr (opSize body) (opSize ((collectFilters (i : Int) body).1))
    ((collectFilters (i : Int) body).1) (collectFilters_size _ _) (le_refl _)]
  rfl

theorem hoistSearches_indexScan (rel : String) (a i : Nat)
    (pat : List (Option RamExpression)) (body : RamOperation) (p : String) :
    hoistSearches (.IndexScan rel a i pat body p) =
      (.IndexScan rel a i pat (insertFilter ((collectFilters (i : Int) body).2)
          ((hoistSearches ((collectFilters (i : Int) body).1)).1)) p,
        !((collectFilters (i : Int) body).2).isEmpty ||
          (hoistSearches ((collectFilters (i : Int) body).1)).2) := by
  show hoistSearchesFuel (opSize body + 1) (.IndexScan rel a i pat body p) = _
  simp only [hoistSearchesFuel]
  rw [hoistSearchesFuel_congr (opSize body) (opSize ((collectFilters (i : Int) body).1))
    ((collectFilters (i : Int) body).1) (collectFilters_size _ _) (le_refl _)]
  rfl

theorem hoistSearches_otherSearch (rel : String) (a i : Nat) (body : RamOperation) (p : String) :
    hoistSearches (.OtherSearch rel a i body p) =
      (.OtherSearch rel a i (insertFilter ((collectFilters (i : Int) body).2)
          ((hoistSearches ((collectFilters (i : Int) body).1)).1)) p,
        !((collectFilters (i : Int) body).2).isEmpty ||
          (hoistSearches ((collectFilters (i : Int) body).1)).2) := by
  show hoistSearchesFuel (opSize body + 1) (.OtherSearch rel a i body p) = _
  simp only [hoistSearchesFuel]
  rw [hoistSearchesFuel_congr (opSize body) (opSize ((collectFilters (i : Int) body).1))
    ((collectFilters (i : Int) body).1) (collectFilters_size _ _) (le_refl _)]
  rfl

theorem hoistSearches_filter (c : Option RamCondition) (body : RamOperation) (p : String) :
    hoistSearches (.Filter c body p) =
      (.Filter c ((hoistSearches body).1) p, (hoistSearches body).2) := rfl

theorem hoistSearches_unpack (l : Nat) (body : RamOperation) :
    hoistSearches (.UnpackRecord l body) =
      (.UnpackRecord l ((hoistSearches body).1), (hoistSearches body).2) := rfl

theorem hoistSearches_project (rel : String) (vs : List RamExpression) :
    hoistSearches (.Project rel vs) = (.Project rel vs, false) := rfl

theorem insertFilter_collect_nil (lvl : Int) (i : Nat) (cs : List RamCondition)
    (b : RamOperation)
    (hb : (collectFilters lvl b).2 = [])
    (hlv : ∀ x ∈ cs, conditionLevel x = (i : Int))
    (hne : (i : Int) ≠ lvl ∨ cs = []) :
    (collectFilters lvl (insertFilter cs b)).2 = [] := by
  cases cs with
  | nil => rw [collectFilters_insertFilter_nil lvl b hb]
  | cons c rest =>
      rcases hne with hne | hne
      · rw [insertFilter]
        have hlev : conditionLevel (addConditionAll c rest) = (i : Int) :=
          addConditionAll_level (i : Int) rest c (hlv c (List.mem_cons_self c rest))
            (fun y hy => hlv y (List.mem_cons_of_mem c hy))
        rw [collectFilters, if_neg (by rw [hlev]; exact hne)]
        exact hb
      · cases hne

theorem hoistSearches_pres_nil_aux (lvl : Int) :
    ∀ (n : Nat) (b : RamOperation), opSize b ≤ n → (collectFilters lvl b).2 = [] →
      (collectFilters lvl (hoistSearches b).1).2 = [] := by
  intro n
  induction n with
  | zero =>
      intro b hsz _
      exact absurd (Nat.lt_of_lt_of_le (opSize_pos b) hsz) (Nat.lt_irrefl 0)
  | succ n ih =>
      intro b hsz hb
      cases b with
      | Scan rel a i body p =>
          rw [hoistSearches_scan]
          have hb2 : (collectFilters lvl body).2 = [] := hb
          have hszb : opSize body ≤ n := by simpa [opSize] using hsz
          have hr : (collectFilters lvl ((collectFilters (i : Int) body).1)).2 = [] :=
            collectFilters_pres_nil lvl (i : Int) body hb2
          have hr2 : (collectFilters lvl
              ((hoistSearches ((collectFilters (i : Int) body).1)).1)).2 = [] :=
            ih ((collectFilters (i : Int) body).1)
              (le_trans (collectFilters_size _ _) hszb) hr
          show (collectFilters lvl (insertFilter ((collectFilters (i : Int) body).2)
            ((hoistSearches ((collectFilters (i : Int) body).1)).1))).2 = []
          by_cases hil : (i : Int) = lvl
          · have hcs : (collectFilters (i : Int) body).2 = [] := by
              rw [hil]
              exact hb2
            exact insertFilter_collect_nil lvl i _ _ hr2 (collectFilters_levels _ _) (Or.inr hcs)
          · exact insertFilter_collect_nil lvl i _ _ hr2 (collectFilters_levels _ _) (Or.inl hil)
      | IndexScan rel a i pat body p =>
          rw [hoistSearches_indexScan]
          have hb2 : (collectFilters lvl body).2 = [] := hb
          have hszb : opSize body ≤ n := by simpa [opSize] using hsz
          have hr : (collectFilters lvl ((collectFilters (i : Int) body).1)).2 = [] :=
            collectFilters_pres_nil lvl (i : Int) body hb2
          have hr2 : (collectFilters lvl
              ((hoistSearches ((collectFilters (i : Int) body).1)).1)).2 = [] :=
            ih ((collectFilters (i : Int) body).1)
              (le_trans (collectFilters_size _ _) hszb) hr
          show (collectFilters lvl (insertFilter ((collectFilters (i : Int) body).2)
            ((hoistSearches ((collectFilters (i : Int) body).1)).1))).2 = []
          by_cases hil : (i : Int) = lvl
          · have hcs : (collectFilters (i : Int) body).2 = [] := by
              rw [hil]
              exact hb2
            exact insertFilter_collect_nil lvl i _ _ hr2 (collectFilters_levels _ _) (Or.inr hcs)
          · exact insertFilter_collect_nil lvl i _ _ hr2 (collectFilters_levels _ _) (Or.inl hil)
      | OtherSearch rel a i body p =>
          rw [hoistSearches_otherSearch]
          have hb2 : (collectFilters lvl body).2 = [] := hb
          have hszb : opSize body ≤ n := by simpa [opSize] using hsz
          have hr : (collectFilters lvl ((collectFilters (i : Int) body).1)).2 = [] :=
            collectFilters_pres_nil lvl (i : Int) body hb2
          have hr2 : (collectFilters lvl
              ((hoistSearches ((collectFilters (i : Int) body).1)).1)).2 = [] :=
            ih ((collectFilters (i : Int) body).1)
              (le_trans (collectFilters_size _ _) hszb) hr
          show (collectFilters lvl (insertFilter ((collectFilters (i : Int) body).2)
            ((hoistSearches ((collectFilters (i : Int) body).1)).1))).2 = []
          by_cases hil : (i : Int) = lvl
          · have hcs : (collectFilters (i : Int) body).2 = [] := by
              rw [hil]
              exact hb2
            exact insertFilter_collect_nil lvl i _ _ hr2 (collectFilters_levels _ _) (Or.inr hcs)
          · exact insertFilter_collect_nil lvl i _ _ hr2 (collectFilters_levels _ _) (Or.inl hil)
      | Filter c body p =>
          rw [hoistSearches_filter]
          have hszb : opSize body ≤ n := by simpa [opSize] using hsz
          cases c with
          | none =>
              have hb2 : (collectFilters lvl body).2 = [] := hb
              have := ih body hszb hb2
              simp only [collectFilters]
              exact this
          | some c0 =>
              obtain ⟨hne, hb2⟩ := collectFilters_filter_some_nil lvl c0 body p hb
              have := ih body hszb hb2
              rw [collectFilters, if_neg hne]
              exact this
      | UnpackRecord l body =>
          rw [hoistSearches_unpack]
          have hb2 : (collectFilters lvl body).2 = [] := hb
          have hszb : opSize body ≤ n := by simpa [opSize] using hsz
          have := ih body hszb hb2
          simp only [collectFilters]
          exact this
      | Project rel vs => rfl

theorem hoistSearches_pres_nil (lvl : Int) (b : RamOperation)
    (hb : (collectFilters lvl b).2 = []) :
    (collectFilters lvl (hoistSearches b).1).2 = [] :=
  hoistSearches_pres_nil_aux lvl (opSize b) b (le_refl _) hb

theorem hoistSearches_idem_aux :
    ∀ (n : Nat) (b : RamOperation), opSize b ≤ n →
      (hoistSearches (hoistSearches b).1).1 = (hoistSearches b).1 := by
  intro n
  induction n with
  | zero =>
      intro b hsz
      exact absurd (Nat.lt_of_lt_of_le (opSize_pos b) hsz) (Nat.lt_irrefl 0)
  | succ n ih =>
      intro b hsz
      cases b with
      | Scan rel a i body p =>
          have hszb : opSize body ≤ n := by simpa [opSize] using hsz
          have hex : (collectFilters (i : Int) ((collectFilters (i : Int) body).1)).2 = [] :=
            collectFilters_exhaust _ body
          have hr1 : (collectFilters (i : Int)
              ((hoistSearches ((collectFilters (i : Int) body).1)).1)).2 = [] :=
            hoistSearches_pres_nil _ _ hex
          have hidem1 : (hoistSearches ((hoistSearches
              ((collectFilters (i : Int) body).1)).1)).1 =
              (hoistSearches ((collectFilters (i : Int) body).1)).1 :=
            ih _ (le_trans (collectFilters_size _ _) hszb)
          rw [hoistSearches_scan]
          simp only []
          rw [hoistSearches_scan]
          simp only []
          cases hcs : (collectFilters (i : Int) body).2 with
          | nil =>
              rw [collectFilters_insertFilter_nil _ _ hr1]
              simp only [insertFilter]
              rw [hidem1]
          | cons c rest =>
              have hlev : conditionLevel (addConditionAll c rest) = (i : Int) :=
                addConditionAll_level _ rest c
                  (collectFilters_levels _ body c (by rw [hcs]; exact List.mem_cons_self c rest))
                  (fun y hy => collectFilters_levels _ body y
                    (by rw [hcs]; exact List.mem_cons_of_mem c hy))
              rw [collectFilters_insertFilter_cons _ _ _ _ hr1 hlev]
              rw [hidem1]
              simp only [insertFilter, addConditionAll, List.foldl_nil]
      | IndexScan rel a i pat body p =>
          have hszb : opSize body ≤ n := by simpa [opSize] using hsz
          have hex : (collectFilters (i : Int) ((collectFilters (i : Int) body).1)).2 = [] :=
            collectFilters_exhaust _ body
          have hr1 : (collectFilters (i : Int)
              ((hoistSearches ((collectFilters (i : Int) body).1)).1)).2 = [] :=
            hoistSearches_pres_nil _ _ hex
          have hidem1 : (hoistSearches ((hoistSearches
              ((collectFilters (i : Int) body).1)).1)).1 =
              (hoistSearches ((collectFilters (i : Int) body).1)).1 :=
            ih _ (le_trans (collectFilters_size _ _) hszb)
          rw [hoistSearches_indexScan]
          simp only []
          rw [hoistSearches_indexScan]
          simp only []
          cases hcs : (collectFilters (i : Int) body).2 with
          | nil =>
              rw [collectFilters_insertFilter_nil _ _ hr1]
              simp only [insertFilter]
              rw [hidem1]
          | cons c rest =>
              have hlev : conditionLevel (addConditionAll c rest) = (i : Int) :=
                addConditionAll_level _ rest c
                  (collectFilters_levels _ body c (by rw [hcs]; exact List.mem_cons_self c rest))
                  (fun y hy => collectFilters_levels _ body y
                    (by rw [hcs]; exact List.mem_cons_of_mem c hy))
              rw [collectFilters_insertFilter_cons _ _ _ _ hr1 hlev]
              rw [hidem1]
              simp only [insertFilter, addConditionAll, List.foldl_nil]
      | OtherSearch rel a i body p =>
          have hszb : opSize body ≤ n := by simpa [opSize] using hsz
          have hex : (collectFilters (i : Int) ((collectFilters (i : Int) body).1)).2 = [] :=
            collectFilters_exhaust _ body
          have hr1 : (collectFilters (i : Int)
              ((hoistSearches ((collectFilters (i : Int) body).1)).1)).2 = [] :=
            hoistSearches_pres_nil _ _ hex
          have hidem1 : (hoistSearches ((hoistSearches
              ((collectFilters (i : Int) body).1)).1)).1 =
              (hoistSearches ((collectFilters (i : Int) body).1)).1 :=
            ih _ (le_trans (collectFilters_size _ _) hszb)
          rw [hoistSearches_otherSearch]
          simp only []
          rw [hoistSearches_otherSearch]
          simp only []
          cases hcs : (collectFilters (i : Int) body).2 with
          | nil =>
              rw [collectFilters_insertFilter_nil _ _ hr1]
              simp only [insertFilter]
              rw [hidem1]
          | cons c rest =>
              have hlev : conditionLevel (addConditionAll c rest) = (i : Int) :=
                addConditionAll_level _ rest c
                  (collectFilters_levels _ body c (by rw [hcs]; exact List.mem_cons_self c rest))
                  (fun y hy => collectFilters_levels _ body y
                    (by rw [hcs]; exact List.mem_cons_of_mem c hy))
              rw [collectFilters_insertFilter_cons _ _ _ _ hr1 hlev]
              rw [hidem1]
              simp only [insertFilter, addConditionAll, List.foldl_nil]
      | Filter c body p =>
          have hszb : opSize body ≤ n := by simpa [opSize] using hsz
          rw [hoistSearches_filter]
          simp only []
          rw [hoistSearches_filter]
          simp only []
          rw [ih body hszb]
      | UnpackRecord l body =>
          have hszb : opSize body ≤ n := by simpa [opSize] using hsz
          rw [hoistSearches_unpack]
          simp only []
          rw [hoistSearches_unpack]
          simp only []
          rw [ih body hszb]
      | Project rel vs => rfl

theorem hoistSearches_idem (b : RamOperation) :
    (hoistSearches (hoistSearches b).1).1 = (hoistSearches b).1 :=
  hoistSearches_idem_aux (opSize b) b (le_refl _)

theorem levelConditionsQuery_idem (q : RamOperation) :
    (levelConditionsQuery (levelConditionsQuery q).1).1 = (levelConditionsQuery q).1 := by
  show (hoistSearches (hoistOuter ((hoistSearches (hoistOuter q).1).1)).1).1 =
    (hoistSearches (hoistOuter q).1).1
  have hex : (collectFilters (-1) ((collectFilters (-1) q).1)).2 = [] :=
    collectFilters_exhaust _ q
  simp only [hoistOuter]
  cases hcs : (collectFilters (-1) q).2 with
  | nil =>
      have h0 : insertFilter [] ((collectFilters (-1) q).1) = (collectFilters (-1) q).1 := rfl
      rw [h0]
      have hnil : (collectFilters (-1)
          ((hoistSearches ((collectFilters (-1) q).1)).1)).2 = [] :=
        hoistSearches_pres_nil _ _ hex
      rw [hnil]
      have h1 : insertFilter []
          ((collectFilters (-1) ((hoistSearches ((collectFilters (-1) q).1)).1)).1) =
          (collectFilters (-1) ((hoistSearches ((collectFilters (-1) q).1)).1)).1 := rfl
      rw [h1, collectFilters_nil_of _ _ hnil]
      exact hoistSearches_idem ((collectFilters (-1) q).1)
  | cons c rest =>
      have hlev : conditionLevel (addConditionAll c rest) = (-1 : Int) :=
        addConditionAll_level _ rest c
          (collectFilters_levels _ q c (by rw [hcs]; exact List.mem_cons_self c rest))
          (fun y hy => collectFilters_levels _ q y
            (by rw [hcs]; exact List.mem_cons_of_mem c hy))
      have h0 : insertFilter (c :: rest) ((collectFilters (-1) q).1) =
          .Filter (some (addConditionAll c rest)) ((collectFilters (-1) q).1) emptyProfile := rfl
      rw [h0, hoistSearches_filter]
      simp only []
      have hnil : (collectFilters (-1)
          ((hoistSearches ((collectFilters (-1) q).1)).1)).2 = [] :=
        hoistSearches_pres_nil _ _ hex
      rw [collectFilters, if_pos hlev]
      simp only []
      rw [hnil, collectFilters_nil_of _ _ hnil]
      have h1 : insertFilter [addConditionAll c rest]
          ((hoistSearches ((collectFilters (-1) q).1)).1) =
          .Filter (some (addConditionAll c rest))
            ((hoistSearches ((collectFilters (-1) q).1)).1) emptyProfile := rfl
      rw [h1, hoistSearches_filter]
      simp only []
      rw [hoistSearches_idem ((collectFilters (-1) q).1)]

theorem levelConditions_idem : ∀ p : RamProgram,
    (levelConditions (levelConditions p).1).1 = (levelConditions p).1
  | [] => rfl
  | q :: qs => by
      simp only [levelConditions]
      rw [levelConditionsQuery_idem q, levelConditions_idem qs]

/-- C1 (amended): a second application of `levelConditions` to its own
output leaves the RAM program structurally unchanged — the pass's tree
transformation is idempotent — but the claim `P(P(x)).changed == false`
does not hold: the second application re-collects and re-inserts the
filters the first one created and reports `changed = true` whenever such a
filter exists. -/
theorem levelConditions_tree_idempotent (p : RamProgram) :
    (levelConditions (levelConditions p).1).1 = (levelConditions p).1 :=
  levelConditions_idem p

/-- C1 counterexample: on a one-query program whose scan is guarded by a
search-independent filter, both the first and the second application of
`levelConditions` report `changed = true`, refuting
`P(P(x)).changed == false`. -/
theorem levelConditions_changed_cex :
    (levelConditions [sampleQuery]).2 = true ∧
      (levelConditions (levelConditions [sampleQuery]).1).2 = true :=
  ⟨rfl, rfl⟩

end Souffle
